import Mathlib

/-!
The tyny redirect service: in-memory store and update merge policy.

A shallow embedding of `store/mem/resolver.go`, `store/errors.go` and of `server.go`: the
store interface, `ServeHTTP`, `ListRedirects`, `CreateRedirect` and `UpdateRedirect` with its
merge callback.

Modelling conventions.
* A Go `*api.Redirect` is an `Option Redirect` (`none` is the nil pointer), and the map holds
  records.  The one pointer the store hands out for writing is followed: the callback of
  `Update` is given the stored record itself, so what it writes to that record is in the store
  whatever it returns (`Outcome.written`), and it may return that same pointer
  (`Returned.same`).  In a store whose keys are the names of its records no two keys hold one
  record, and the statements about callbacks that write are made for such stores.
* A Go `error` is an `Option Error` (`none` is the nil error).
* A Go `string` is a Lean `String`, compared by code points (for valid UTF-8 this is the
  byte order Go uses).  Comparisons inside definitions go through `String.toList`, where the
  order is computed structurally; `strLe_iff` and `strLt_iff` relate them to `≤` and `<`.
* The Go map is an association list with distinct keys (`AList`); `range` visits the keys in
  the order of that list, which stands for the unspecified iteration order of the map.
* The mutex is not modelled: every operation is a function from the store before the call to
  the result and the store after it.
* A caller-supplied closure may have state of its own; it is threaded explicitly as `σ`.
* The server is written against the store interface, as in the source; its functions take an
  implementation and the state of it.  Logging has no part in any result and is left out.
* Library functions (`sort`, `strings`, `base64`, `fieldmaskpb`, `fmutils`, `proto.Merge`,
  `net/http`, `net/url`, `path`) are modelled by what their documentation and code say they
  do.  The answer of `ServeHTTP` is the call it makes to `net/http`; the `Location` header that
  call sets is `redirectLocation`.
-/

set_option autoImplicit false

namespace Tyny

/-- Modelled from the spec: the generated message type `api.Redirect` is not among the sources;
the spec gives it the fields `name` (the key) and `target` (the destination). -/
structure Redirect where
  Name : String
  Target : String
deriving DecidableEq, Repr

/-- The gRPC status codes `server.go` answers with. -/
inductive Code where
  | InvalidArgument
  | NotFound
  | AlreadyExists
  | Unavailable
deriving DecidableEq, Repr

/-- Go `error` values: the two sentinels of `store/errors.go`, a gRPC status, or any other
error a callback may return. -/
inductive Error where
  | NotFound
  | Conflict
  | Status (code : Code) (msg : String)
  | Other (msg : String)
deriving DecidableEq, Repr

/-- The `Store` struct of `store/mem/resolver.go`: the map `redirects` (the mutex has no
state of its own). -/
structure Store where
  redirects : AList (fun _ : String => Redirect)
deriving DecidableEq

/-- The comparison `a <= b` of Go strings. -/
def strLe (a b : String) : Prop := a.toList ≤ b.toList

/-- The comparison `a < b` of Go strings. -/
def strLt (a b : String) : Prop := a.toList < b.toList

instance strLe.dec : DecidableRel strLe := fun a b =>
  inferInstanceAs (Decidable (a.toList ≤ b.toList))

instance strLt.dec : DecidableRel strLt := fun a b =>
  inferInstanceAs (Decidable (a.toList < b.toList))

/-- The loop of Go `sort.Search(n, f)`: binary search on `[i, j)`.  The first argument bounds
the number of iterations; `j - i` iterations always suffice. -/
def searchLoop (f : Nat → Bool) : Nat → Nat → Nat → Nat
  | 0, i, _ => i
  | fuel + 1, i, j =>
    if i < j then
      let h := (i + j) / 2
      if !f h then searchLoop f fuel (h + 1) j else searchLoop f fuel i h
    else i

/-- Go `sort.Search(n, f)`. -/
def Search (n : Nat) (f : Nat → Bool) : Nat := searchLoop f n 0 n

/-- Go `sort.SearchStrings(a, x)`, that is `Search(len(a), func(i) { return a[i] >= x })`. -/
def SearchStrings (a : List String) (x : String) : Nat :=
  Search a.length (fun i => decide (strLe x (a.getD i "")))

/-- Go `sort.Strings`: the keys in ascending order. -/
def Strings (a : List String) : List String := a.insertionSort strLe

/-- `mem.New()`. -/
def New : Store := ⟨∅⟩

/-- `Store.Get`: the record and the error returned (the store is not written). -/
def Store.Get (s : Store) (id : String) : Option Redirect × Option Error :=
  match s.redirects.lookup id with
  | none => (none, some Error.NotFound)
  | some r => (some r, none)

/-- `Store.Put`: the error returned and the store after the call. -/
def Store.Put (s : Store) (r : Redirect) : Option Error × Store :=
  match s.redirects.lookup r.Name with
  | some _ => (some Error.Conflict, s)
  | none => (none, ⟨s.redirects.insert r.Name r⟩)

/-- The pointer a callback returns: the pointer it was handed, a pointer to another record
(one the map does not hold), or nil. -/
inductive Returned where
  | same
  | other (r : Redirect)
  | null
deriving DecidableEq, Repr

/-- What a call of a `func(*api.Redirect) (*api.Redirect, error)` does: `written` is the
record it was handed as the call leaves it (the record itself when nothing was written), `ret`
the pointer returned and `err` the error returned.  The record it is handed is the only
record of the store the callback writes to. -/
structure Outcome where
  written : Redirect
  ret : Returned
  err : Option Error
deriving DecidableEq, Repr

/-- The record the returned pointer points to, `none` for nil. -/
def Outcome.result (o : Outcome) : Option Redirect :=
  match o.ret with
  | Returned.same => some o.written
  | Returned.other r => some r
  | Returned.null => none

/-- The type of the `updateFn` argument of `Store.Update`: a closure with state `σ`, handed a
pointer to the current record. -/
abbrev UpdateFn (σ : Type) := Redirect → σ → Outcome × σ

/-- `Store.Update`: the pointer and error returned, the store after the call and the state of
the closure after the call.  `updateFn` is handed the pointer the map holds, so the record
under `id` is, after the call of `updateFn`, the record as `updateFn` left it; the returned
record is then stored under its own name unless there is an error.  The result is `none` when
the Go code panics, which it does when `updateFn` returns a nil record together with a nil
error (`r.Name` on a nil pointer). -/
def Store.Update {σ : Type} (s : Store) (id : String) (updateFn : UpdateFn σ) (env : σ) :
    Option ((Option Redirect × Option Error) × Store × σ) :=
  match s.redirects.lookup id with
  | none => some ((none, some Error.NotFound), s, env)
  | some r =>
    match (updateFn r env).1.err, (updateFn r env).1.result with
    | some err, res =>
      some ((res, some err), ⟨s.redirects.replace id (updateFn r env).1.written⟩,
        (updateFn r env).2)
    | none, some r' =>
      some ((some r', none),
        ⟨(s.redirects.replace id (updateFn r env).1.written).insert r'.Name r'⟩,
        (updateFn r env).2)
    | none, none => none

/-- `Store.Delete`: the error returned and the store after the call. -/
def Store.Delete (s : Store) (id : String) : Option Error × Store :=
  match s.redirects.lookup id with
  | none => (some Error.NotFound, s)
  | some _ => (none, ⟨s.redirects.erase id⟩)

/-- The `for i < len(keys)` loop of `Store.List`, on the keys from index `i` on: `count` and
`res` are the loop variables; the result is the page and the next token. -/
def listLoop (s : Store) (pagesize : Int) :
    List String → Nat → List (Option Redirect) → List (Option Redirect) × String
  | [], _, res => (res, "")
  | key :: rest, count, res =>
    if pagesize > 0 ∧ (count : Int) ≥ pagesize then (res, key)
    else listLoop s pagesize rest (count + 1) (res ++ [s.redirects.lookup key])

/-- `Store.List`: the page, the next token and the error returned (always nil). -/
def Store.List (s : Store) (token : String) (pagesize : Int) :
    List (Option Redirect) × String × Option Error :=
  let keys := Strings s.redirects.keys
  let i := SearchStrings keys token
  let out := listLoop s pagesize (keys.drop i) 0 []
  (out.1, out.2, none)

/-- Every key holds a record of that name. -/
def Store.Keyed (s : Store) : Prop := ∀ e ∈ s.redirects.entries, e.2.Name = e.1

instance Store.Keyed.dec (s : Store) : Decidable s.Keyed :=
  inferInstanceAs (Decidable (∀ e ∈ s.redirects.entries, e.2.Name = e.1))

/-- The caller's loop of the pagination contract: call `List` with the token of the previous
call, starting from `token`, until the next token is empty; the result is the list of the pages,
one per call, or `none` when `fuel` calls did not reach an empty token. -/
def listAll (s : Store) (k : Int) : Nat → String → Option (List (List (Option Redirect)))
  | 0, _ => none
  | fuel + 1, token =>
    match s.List token k with
    | (page, next, _) =>
      if next = "" then some [page]
      else (listAll s k fuel next).map (fun pages => page :: pages)

/-- The immutable fields of `UpdateRedirect`. -/
def immutableFields : List String := ["name"]

/-- `FieldMask.IsValid` against a `Redirect`: every path names a field of the message. -/
def IsValid (paths : List String) : Bool :=
  paths.all (fun p => p = "name" || p = "target")

/-- `fmutils.Prune(msg, paths)` for paths that name fields of the message: the fields listed
are cleared. -/
def Prune (msg : Redirect) (paths : List String) : Redirect :=
  { Name := if "name" ∈ paths then "" else msg.Name
    Target := if "target" ∈ paths then "" else msg.Target }

/-- `fmutils.Filter(msg, paths)` for paths that name fields of the message: the fields listed
are kept and the others cleared; with an empty mask every field is kept. -/
def Filter (msg : Redirect) (paths : List String) : Redirect :=
  if paths.isEmpty then msg
  else
    { Name := if "name" ∈ paths then msg.Name else ""
      Target := if "target" ∈ paths then msg.Target else "" }

/-- `proto.Merge(dst, src)`: every populated (non-empty) field of `src` overwrites the field
of `dst`. -/
def Merge (dst src : Redirect) : Redirect :=
  { Name := if src.Name = "" then dst.Name else src.Name
    Target := if src.Target = "" then dst.Target else src.Target }

/-- The closure `upFn` of `Server.UpdateRedirect`.  Its state is `req.Redirect`, which it
prunes and filters in place; `paths` is `req.UpdateMask.GetPaths()`.  `proto.Merge` writes
into `old`, the record the closure is handed, and `old` is the pointer returned. -/
def upFn (paths : List String) : UpdateFn Redirect := fun old req =>
  let req1 := Prune req immutableFields
  let req2 := Filter req1 paths
  (⟨Merge old req2, Returned.same, none⟩, req2)

/-- The keys `>= token` in ascending order: the part of the sorted key list `List` walks. -/
def keysFrom (s : Store) (token : String) : List String :=
  (Strings s.redirects.keys).filter (fun k => decide (token ≤ k))

/-- The store of the listing scenario: `b`, `a` and `c` put in that order. -/
def abcStore : Store :=
  ((((New.Put ⟨"b", "http://b"⟩).2).Put ⟨"a", "http://a"⟩).2.Put ⟨"c", "http://c"⟩).2

/-- A closure wrapped so that it counts its calls: the second component of the state is the
number of times the closure has run. -/
def counting {σ : Type} (f : UpdateFn σ) : UpdateFn (σ × Nat) := fun r e =>
  ((f r e.1).1, ((f r e.1).2, e.2 + 1))

/-- A callback that sets the target of the record it is handed and returns that record. -/
def retarget (target : String) : UpdateFn Unit := fun r e =>
  (⟨{ r with Target := target }, Returned.same, none⟩, e)

/-- A callback that fails without writing. -/
def refuse (msg : String) : UpdateFn Unit := fun r e =>
  (⟨r, Returned.same, some (Error.Other msg)⟩, e)

/-- A callback that sets the target of the record it is handed and then fails. -/
def scribble (target msg : String) : UpdateFn Unit := fun r e =>
  (⟨{ r with Target := target }, Returned.same, some (Error.Other msg)⟩, e)

/-- A callback that leaves the record it is handed as it is and returns a copy of it under
another name. -/
def copyAs (name : String) : UpdateFn Unit := fun r e =>
  (⟨r, Returned.other { r with Name := name }, none⟩, e)

/-- The store after putting the records of a list one after the other into a new store. -/
def putAll (rs : List Redirect) : Store :=
  rs.foldl (fun s r => (s.Put r).2) New

/-- The six orders in which the records `a`, `b` and `c` can be put. -/
def abcOrders : List (List Redirect) :=
  [[⟨"a", "http://a"⟩, ⟨"b", "http://b"⟩, ⟨"c", "http://c"⟩],
   [⟨"a", "http://a"⟩, ⟨"c", "http://c"⟩, ⟨"b", "http://b"⟩],
   [⟨"b", "http://b"⟩, ⟨"a", "http://a"⟩, ⟨"c", "http://c"⟩],
   [⟨"b", "http://b"⟩, ⟨"c", "http://c"⟩, ⟨"a", "http://a"⟩],
   [⟨"c", "http://c"⟩, ⟨"a", "http://a"⟩, ⟨"b", "http://b"⟩],
   [⟨"c", "http://c"⟩, ⟨"b", "http://b"⟩, ⟨"a", "http://a"⟩]]

/-- The store states reached from the new store by `Put`, `Delete` and `Update` calls whose
callback leaves the name of the record it is handed as it is (it may write the other fields,
and return a record of any name). -/
inductive Reachable : Store → Prop where
  | new : Reachable New
  | put (s : Store) (r : Redirect) : Reachable s → Reachable (s.Put r).2
  | delete (s : Store) (id : String) : Reachable s → Reachable (s.Delete id).2
  | update {σ : Type} (s : Store) (id : String) (updateFn : UpdateFn σ) (env : σ)
      (out : (Option Redirect × Option Error) × Store × σ) :
      Reachable s →
      (∀ cur, s.redirects.lookup id = some cur → (updateFn cur env).1.written.Name = cur.Name) →
      s.Update id updateFn env = some out → Reachable out.2.1

/-- The interface `Store` of `server.go`, over an implementation whose state is `σ`: every
method takes the state before the call and returns its results with the state after it.
`Update` returns `none` when the call panics. -/
structure StoreOps (σ : Type) where
  Get : σ → String → (Option Redirect × Option Error) × σ
  Put : σ → Redirect → Option Error × σ
  Update : (τ : Type) → σ → String → UpdateFn τ → τ →
    Option ((Option Redirect × Option Error) × σ × τ)
  Delete : σ → String → Option Error × σ
  List : σ → String → Int → (List (Option Redirect) × String × Option Error) × σ

/-- The in-memory store as an implementation of the interface: `Get` and `List` hand the map
back as they found it. -/
def memOps : StoreOps Store where
  Get s id := (s.Get id, s)
  Put s r := s.Put r
  Update _ s id updateFn env := s.Update id updateFn env
  Delete s id := s.Delete id
  List s token pagesize := (s.List token pagesize, s)

/-- A callback that renames the record it is handed and returns that record. -/
def rename (name : String) : UpdateFn Unit := fun r e =>
  (⟨{ r with Name := name }, Returned.same, none⟩, e)

/-- A store made with all three writing operations: `abcStore` with `a` deleted and a copy of
the record of `b` stored under the name `z`. -/
def movedStore : Store :=
  match (abcStore.Delete "a").2.Update "b" (copyAs "z") () with
  | some out => out.2.1
  | none => New

/-- The UTF-8 bytes of a character. -/
def utf8EncodeChar (c : Char) : List Nat :=
  if c.toNat < 128 then [c.toNat]
  else if c.toNat < 2048 then [192 + c.toNat / 64, 128 + c.toNat % 64]
  else if c.toNat < 65536 then
    [224 + c.toNat / 4096, 128 + c.toNat / 64 % 64, 128 + c.toNat % 64]
  else
    [240 + c.toNat / 262144, 128 + c.toNat / 4096 % 64, 128 + c.toNat / 64 % 64,
      128 + c.toNat % 64]

/-- The conversion `[]byte(s)`: the bytes of a Go string are the UTF-8 bytes of its text. -/
def bytesOf (s : String) : List Nat := s.toList.flatMap utf8EncodeChar

/-- The character at the head of a byte sequence and the bytes after it.  A byte that does
not start a character, or a character cut short, is read as U+FFFD. -/
def utf8DecodeChar : List Nat → Option (Char × List Nat)
  | [] => none
  | b0 :: rest =>
    if b0 < 128 then some (Char.ofNat b0, rest)
    else if b0 < 192 then some (Char.ofNat 65533, rest)
    else if b0 < 224 then
      match rest with
      | b1 :: rest1 => some (Char.ofNat ((b0 - 192) * 64 + (b1 - 128)), rest1)
      | [] => some (Char.ofNat 65533, rest)
    else if b0 < 240 then
      match rest with
      | b1 :: b2 :: rest2 =>
        some (Char.ofNat ((b0 - 224) * 4096 + (b1 - 128) * 64 + (b2 - 128)), rest2)
      | _ => some (Char.ofNat 65533, rest)
    else
      match rest with
      | b1 :: b2 :: b3 :: rest3 =>
        some (Char.ofNat ((b0 - 240) * 262144 + (b1 - 128) * 4096 + (b2 - 128) * 64
          + (b3 - 128)), rest3)
      | _ => some (Char.ofNat 65533, rest)

/-- The characters of a byte sequence; the first argument bounds the number of characters
read, and the number of bytes always suffices. -/
def utf8DecodeLoop : Nat → List Nat → List Char
  | 0, _ => []
  | fuel + 1, bs =>
    match utf8DecodeChar bs with
    | none => []
    | some (c, rest) => c :: utf8DecodeLoop fuel rest

/-- The conversion `string(b)`.  A Go string may hold bytes that are not UTF-8; a Lean string
cannot, and such bytes are read as U+FFFD. -/
def stringOf (bs : List Nat) : String := String.mk (utf8DecodeLoop bs.length bs)

/-- The alphabet of `base64.StdEncoding`. -/
def encodeStd : List Char :=
  "ABCDEFGHIJKLMNOPQRSTUVWXYZabcdefghijklmnopqrstuvwxyz0123456789+/".toList

/-- The base64 character of a six-bit value. -/
def encodeSextet (n : Nat) : Char := encodeStd.getD n 'A'

/-- The six-bit value of a base64 character, `none` for a character outside the alphabet. -/
def decodeSextet (c : Char) : Option Nat :=
  if encodeStd.indexOf c < 64 then some (encodeStd.indexOf c) else none

/-- The characters of `base64.StdEncoding.EncodeToString`: three bytes make four characters,
and a last group of one or two bytes is padded with `=`. -/
def encodeBytes : List Nat → List Char
  | [] => []
  | [a] => [encodeSextet (a / 4), encodeSextet (a % 4 * 16), '=', '=']
  | [a, b] =>
    [encodeSextet (a / 4), encodeSextet (a % 4 * 16 + b / 16), encodeSextet (b % 16 * 4), '=']
  | a :: b :: c :: rest =>
    encodeSextet (a / 4) :: encodeSextet (a % 4 * 16 + b / 16) ::
      encodeSextet (b % 16 * 4 + c / 64) :: encodeSextet (c % 64) :: encodeBytes rest

/-- `base64.StdEncoding.EncodeToString`. -/
def EncodeToString (src : List Nat) : String := String.mk (encodeBytes src)

/-- The bytes of a sequence of groups of four base64 characters; padding may only end the
last group. -/
def decodeQuads : List Char → Option (List Nat)
  | [] => some []
  | c0 :: c1 :: c2 :: c3 :: rest =>
    if c3 = '=' then
      if rest ≠ [] then none
      else if c2 = '=' then
        match decodeSextet c0, decodeSextet c1 with
        | some x0, some x1 => some [x0 * 4 + x1 / 16]
        | _, _ => none
      else
        match decodeSextet c0, decodeSextet c1, decodeSextet c2 with
        | some x0, some x1, some x2 => some [x0 * 4 + x1 / 16, x1 % 16 * 16 + x2 / 4]
        | _, _, _ => none
    else
      match decodeSextet c0, decodeSextet c1, decodeSextet c2, decodeSextet c3,
        decodeQuads rest with
      | some x0, some x1, some x2, some x3, some tl =>
        some ((x0 * 4 + x1 / 16) :: (x1 % 16 * 16 + x2 / 4) :: (x2 % 4 * 64 + x3) :: tl)
      | _, _, _, _, _ => none
  | _ => none

/-- `base64.StdEncoding.DecodeString`: line breaks are skipped; `none` is the error. -/
def DecodeString (s : String) : Option (List Nat) :=
  decodeQuads (s.toList.filter (fun c => c ≠ Char.ofNat 10 ∧ c ≠ Char.ofNat 13))

/-- Go `strings.TrimPrefix(s, prefix)`. -/
def TrimPrefix (s pre : String) : String :=
  if pre.toList.isPrefixOf s.toList then String.mk (s.toList.drop pre.toList.length) else s

/-- The order `lessPath` of `fieldmaskpb`, on the bytes of two paths: bytewise, with the dot
as the smallest byte. -/
def lessPath : List Nat → List Nat → Bool
  | [], [] => false
  | [], _ :: _ => true
  | _ :: _, [] => false
  | a :: x, b :: y =>
    if a = b then lessPath x y else decide ((a + 256 - 46) % 256 < (b + 256 - 46) % 256)

/-- The test `hasPathPrefix` of `fieldmaskpb`: `path` is `pre` or goes on with a dot after
it. -/
def hasPathPrefix (path pre : String) : Bool :=
  pre.toList.isPrefixOf path.toList &&
    (path.toList.length = pre.toList.length || path.toList.getD pre.toList.length 'x' = '.')

/-- The paths of a mask after `FieldMask.Normalize`: sorted by `lessPath`, and a path left out
when it repeats or extends the path kept before it. -/
def normalizePaths (paths : List String) : List String :=
  (paths.insertionSort (fun x y => lessPath (bytesOf y) (bytesOf x) = false)).foldl
    (fun out path =>
      match out.getLast? with
      | some last => if hasPathPrefix path last then out else out ++ [path]
      | none => out ++ [path]) []

/-- The message `fieldmaskpb.FieldMask`. -/
structure FieldMask where
  Paths : List String
deriving DecidableEq, Repr

/-- The fields of `api.ListRedirectsRequest` that `server.go` reads. -/
structure ListRedirectsRequest where
  PageToken : String
  PageSize : Int
deriving DecidableEq, Repr

/-- The fields of `api.ListRedirectsResponse` that `server.go` writes. -/
structure ListRedirectsResponse where
  Redirects : List (Option Redirect)
  NextPageToken : String
deriving DecidableEq, Repr

/-- The field of `api.CreateRedirectRequest` that `server.go` reads. -/
structure CreateRedirectRequest where
  Redirect : Option Redirect
deriving DecidableEq, Repr

/-- The fields of `api.UpdateRedirectRequest` that `server.go` reads. -/
structure UpdateRedirectRequest where
  Redirect : Option Redirect
  UpdateMask : Option FieldMask
deriving DecidableEq, Repr

/-- What `ServeHTTP` answers: `http.NotFound`, or `http.Redirect` with the URL and the status
code it is called with. -/
inductive Response where
  | NotFound
  | Redirect (url : String) (code : Nat)
deriving DecidableEq, Repr

/-- `Server.ServeHTTP` on a request with URL path `path`: the answer and the state of the
store after the call; `none` when the handler panics, which it does on `rd.Name` when `Get`
returns a nil record with an error other than `NotFound`.  Logging is left out. -/
def ServeHTTP {σ : Type} (ops : StoreOps σ) (st : σ) (path : String) : Option (Response × σ) :=
  match ops.Get st (TrimPrefix path "/") with
  | ((_, some Error.NotFound), st1) => some (Response.NotFound, st1)
  | ((some rd, _), st1) => some (Response.Redirect rd.Target 307, st1)
  | ((none, _), _) => none

/-- `Server.ListRedirects`: the response and error, and the state of the store after the
call. -/
def ListRedirects {σ : Type} (ops : StoreOps σ) (st : σ) (req : ListRedirectsRequest) :
    (Option ListRedirectsResponse × Option Error) × σ :=
  match DecodeString req.PageToken with
  | none => ((none, some (Error.Status Code.InvalidArgument "invalid page_token")), st)
  | some t =>
    match ops.List st (stringOf t) req.PageSize with
    | ((_, _, some _), st1) =>
      ((none, some (Error.Status Code.Unavailable "failed to fetch redirects")), st1)
    | ((rd, pt, none), st1) => ((some ⟨rd, EncodeToString (bytesOf pt)⟩, none), st1)

/-- `Server.CreateRedirect`: the record and error returned, and the state of the store after
the call. -/
def CreateRedirect {σ : Type} (ops : StoreOps σ) (st : σ) (req : CreateRedirectRequest) :
    (Option Redirect × Option Error) × σ :=
  match req.Redirect with
  | none => ((none, some (Error.Status Code.InvalidArgument "no redirect specified")), st)
  | some r =>
    match ops.Put st r with
    | (none, st1) => ((some r, none), st1)
    | (some err, st1) =>
      if err = Error.Conflict then
        ((none, some (Error.Status Code.AlreadyExists "redirect already exists")), st1)
      else ((none, some (Error.Status Code.Unavailable "unable to create redirect")), st1)

/-- `Server.UpdateRedirect`: the record and error returned, and the state of the store after
the call; `none` when the handler panics, which it does on `Normalize` when the request has
a record and no mask, and when `Update` does. -/
def UpdateRedirect {σ : Type} (ops : StoreOps σ) (st : σ) (req : UpdateRedirectRequest) :
    Option ((Option Redirect × Option Error) × σ) :=
  match req.Redirect with
  | none => some ((none, some (Error.Status Code.InvalidArgument "no redirect specified")), st)
  | some r =>
    match req.UpdateMask with
    | none => none
    | some m =>
      if IsValid (normalizePaths m.Paths) = false then
        some ((none, some (Error.Status Code.InvalidArgument "mask invalid")), st)
      else
        match ops.Update Redirect st r.Name (upFn (normalizePaths m.Paths)) r with
        | none => none
        | some ((rd, none), st1, _) => some ((rd, none), st1)
        | some ((_, some err), st1, _) =>
          if err = Error.NotFound then
            some ((none, some (Error.Status Code.NotFound "redirect not found")), st1)
          else some ((none, some (Error.Status Code.Unavailable "unable to update redirect")), st1)

/-- The in-memory store with a journal: every method of the interface adds its name to the
list of the calls made. -/
def tracedOps : StoreOps (Store × List String) where
  Get st id := (st.1.Get id, (st.1, st.2 ++ ["Get"]))
  Put st r := ((st.1.Put r).1, ((st.1.Put r).2, st.2 ++ ["Put"]))
  Update _ st id updateFn env :=
    (st.1.Update id updateFn env).map
      (fun out => (out.1, (out.2.1, st.2 ++ ["Update"]), out.2.2))
  Delete st id := ((st.1.Delete id).1, ((st.1.Delete id).2, st.2 ++ ["Delete"]))
  List st token pagesize := (st.1.List token pagesize, (st.1, st.2 ++ ["List"]))

/-! ### The `Location` header of `http.Redirect` -/

/-- The loop of `getScheme` of `net/url`, from index `i` of the URL on: whether it returns a
scheme.  It does when it meets a colon, not at index 0, after letters, digits, `+`, `-` and
`.` only, the first of them a letter. -/
def schemeLoop : Nat → List Char → Bool
  | _, [] => false
  | i, c :: cs =>
    if (97 ≤ c.toNat && c.toNat ≤ 122) || (65 ≤ c.toNat && c.toNat ≤ 90) then
      schemeLoop (i + 1) cs
    else if (48 ≤ c.toNat && c.toNat ≤ 57) || c = '+' || c = '-' || c = '.' then
      if i = 0 then false else schemeLoop (i + 1) cs
    else if c = ':' then decide (i ≠ 0)
    else false

/-- Whether `url.Parse` looks for and finds a scheme in `url`: `getScheme` is run on the part
before the first `#`. -/
def hasScheme (url : String) : Bool :=
  schemeLoop 0 (url.toList.takeWhile (fun c => c ≠ '#'))

/-- A lowercase hexadecimal digit, as `strconv.AppendInt` with base 16 writes it. -/
def hexDigit (n : Nat) : Char := "0123456789abcdef".toList.getD n '0'

/-- The function `hexEscapeNonASCII` of `net/http`: every byte from 128 on is written as `%`
and its two hexadecimal digits. -/
def hexEscapeNonASCII (s : String) : String :=
  String.mk ((bytesOf s).flatMap
    (fun b => if 128 ≤ b then ['%', hexDigit (b / 16), hexDigit (b % 16)] else [Char.ofNat b]))

/-- The first result of `path.Split`: the path up to and with its last slash. -/
def splitDir (path : String) : String :=
  String.mk (path.toList.reverse.dropWhile (fun c => c ≠ '/')).reverse

/-- The backtracking of `path.Clean` on a `..` element, on the buffer with its last byte
first: bytes are taken off the end until the one taken off is a slash or the buffer is down to
`dotdot` bytes. -/
def backtrack (dotdot : Nat) : List Char → List Char
  | [] => []
  | c :: out => if dotdot < out.length && c ≠ '/' then backtrack dotdot out else out

/-- The loop of `path.Clean`: `rest` is the path from the read index on, `out` the buffer
written so far with its last byte first, `dotdot` the index up to which the buffer may not be
taken back. -/
def cleanLoop (rooted : Bool) : Nat → List Char → List Char → Nat → List Char
  | 0, _, out, _ => out
  | _ + 1, [], out, _ => out
  | fuel + 1, c :: rest, out, dotdot =>
    if c = '/' then cleanLoop rooted fuel rest out dotdot
    else if c = '.' && (rest.isEmpty || rest.head? = some '/') then
      cleanLoop rooted fuel rest out dotdot
    else if c = '.' && rest.head? = some '.' &&
        (rest.tail.isEmpty || rest.tail.head? = some '/') then
      if dotdot < out.length then cleanLoop rooted fuel rest.tail (backtrack dotdot out) dotdot
      else if !rooted then
        cleanLoop rooted fuel rest.tail ('.' :: '.' :: (if 0 < out.length then '/' :: out else out))
          ('.' :: '.' :: (if 0 < out.length then '/' :: out else out)).length
      else cleanLoop rooted fuel rest.tail out dotdot
    else
      cleanLoop rooted fuel ((c :: rest).dropWhile (fun x => x ≠ '/'))
        (((c :: rest).takeWhile (fun x => x ≠ '/')).reverse ++
          (if (rooted && out.length ≠ 1) || (!rooted && out.length ≠ 0) then '/' :: out else out))
        dotdot

/-- The function `path.Clean`. -/
def Clean (path : String) : String :=
  if path = "" then "."
  else if path.toList.head? = some '/' then
    String.mk (cleanLoop true path.length (path.toList.drop 1) ['/'] 1).reverse
  else
    match cleanLoop false path.length path.toList [] 0 with
    | [] => "."
    | out => String.mk out.reverse

/-- The URLs for which the relative branch of `http.Redirect` is modelled: letters, digits,
`.`, `-`, `_`, `~` and `/` only, and no `//` at the start.  `url.Parse` accepts them and finds
neither a scheme nor a host in them. -/
def plainRelative (url : String) : Bool :=
  url.toList.all (fun c =>
    (97 ≤ c.toNat && c.toNat ≤ 122) || (65 ≤ c.toNat && c.toNat ≤ 90) ||
      (48 ≤ c.toNat && c.toNat ≤ 57) || c = '.' || c = '-' || c = '_' || c = '~' || c = '/') &&
    !("//".toList.isPrefixOf url.toList)

/-- What `http.Redirect` makes of a URL without scheme and host, for a request with URL path
`oldpath`: a URL that does not start with a slash is put after the directory of the request
path, and the part before the first `?` is cleaned, a slash at its end kept. -/
def resolveRelative (oldpath url : String) : String :=
  let oldpath1 := if oldpath = "" then "/" else oldpath
  let url1 := if url = "" ∨ url.toList.head? ≠ some '/' then splitDir oldpath1 ++ url else url
  let path := String.mk (url1.toList.takeWhile (fun c => c ≠ '?'))
  let query := String.mk (url1.toList.dropWhile (fun c => c ≠ '?'))
  let cleaned := Clean path
  let trailing := path.toList.getLast? = some '/'
  (if trailing ∧ cleaned.toList.getLast? ≠ some '/' then cleaned ++ "/" else cleaned) ++ query

/-- The value `http.Redirect(w, r, url, code)` sets the `Location` header of the response to,
for a request with URL path `oldpath`, where it is modelled (`none` where it is not).  A URL
with a scheme is left as it is, whether `url.Parse` accepts it or not; a URL without one that
`url.Parse` accepts is made absolute against the request path; in both cases the bytes from
128 on are escaped. -/
def redirectLocation (oldpath url : String) : Option String :=
  if hasScheme url then some (hexEscapeNonASCII url)
  else if plainRelative url then some (hexEscapeNonASCII (resolveRelative oldpath url))
  else none

/-! ## Order on keys -/

theorem strLe_iff (a b : String) : strLe a b ↔ a ≤ b :=
  String.le_iff_toList_le.symm

theorem strLt_iff (a b : String) : strLt a b ↔ a < b :=
  String.lt_iff_toList_lt.symm

theorem empty_le (a : String) : "" ≤ a := by
  rw [String.le_iff_toList_le]
  exact List.nil_le

theorem ne_empty_of_lt {a b : String} (h : a < b) : b ≠ "" := by
  intro hb
  subst hb
  exact absurd h (not_lt.mpr (empty_le a))

instance strLe.total : IsTotal String strLe :=
  ⟨fun a b => by simpa only [strLe_iff] using le_total a b⟩

instance strLe.trans : IsTrans String strLe :=
  ⟨fun a b c hab hbc => by
    rw [strLe_iff] at *
    exact le_trans hab hbc⟩

/-! ## `sort.Strings` -/

theorem Strings_perm (a : List String) : (Strings a).Perm a :=
  List.perm_insertionSort strLe a

theorem mem_Strings {a : List String} {k : String} : k ∈ Strings a ↔ k ∈ a :=
  (Strings_perm a).mem_iff

theorem Strings_sorted_le (a : List String) : (Strings a).Sorted (· ≤ ·) := by
  have h : (Strings a).Sorted strLe := List.sorted_insertionSort strLe a
  exact h.imp (fun {x y} hxy => (strLe_iff x y).mp hxy)

theorem Strings_sorted_lt {a : List String} (hnd : a.Nodup) : (Strings a).Sorted (· < ·) := by
  have hs := Strings_sorted_le a
  have hn : (Strings a).Nodup := (Strings_perm a).nodup_iff.mpr hnd
  exact (List.Pairwise.and hs hn).imp (fun {x y} h => lt_of_le_of_ne h.1 h.2)

theorem keys_sorted (s : Store) : (Strings s.redirects.keys).Sorted (· < ·) :=
  Strings_sorted_lt s.redirects.keys_nodup

/-! ## `sort.Search` -/

theorem searchLoop_spec (f : Nat → Bool) (n : Nat)
    (hmono : ∀ a b, a ≤ b → b < n → f a = true → f b = true) :
    ∀ (fuel i j : Nat), i ≤ j → j ≤ n → j - i ≤ fuel →
      (∀ k, k < i → f k = false) → (∀ k, j ≤ k → k < n → f k = true) →
      searchLoop f fuel i j ≤ n ∧ (∀ k, k < searchLoop f fuel i j → f k = false) ∧
        (∀ k, searchLoop f fuel i j ≤ k → k < n → f k = true) := by
  intro fuel
  induction fuel with
  | zero =>
    intro i j hij hjn hfuel hlo hhi
    have hji : j = i := by omega
    subst hji
    exact ⟨hjn, hlo, hhi⟩
  | succ fuel ih =>
    intro i j hij hjn hfuel hlo hhi
    unfold searchLoop
    by_cases hlt : i < j
    · have hh1 : i ≤ (i + j) / 2 := by omega
      have hh2 : (i + j) / 2 < j := by omega
      simp only [hlt, if_true]
      cases hfh : f ((i + j) / 2) with
      | false =>
        simp only [Bool.not_false, if_true]
        refine ih _ _ (by omega) hjn (by omega) ?_ hhi
        intro k hk
        cases hfk : f k with
        | false => rfl
        | true =>
          have := hmono k ((i + j) / 2) (by omega) (by omega) hfk
          rw [hfh] at this
          exact absurd this (by decide)
      | true =>
        simp only [Bool.not_true, Bool.false_eq_true, if_false]
        refine ih _ _ hh1 (by omega) (by omega) hlo ?_
        intro k hk hkn
        exact hmono _ k hk hkn hfh
    · simp only [hlt, if_false]
      have hji : j = i := by omega
      subst hji
      exact ⟨hjn, hlo, hhi⟩

theorem Search_spec (f : Nat → Bool) (n : Nat)
    (hmono : ∀ a b, a ≤ b → b < n → f a = true → f b = true) :
    Search n f ≤ n ∧ (∀ k, k < Search n f → f k = false) ∧
      (∀ k, Search n f ≤ k → k < n → f k = true) :=
  searchLoop_spec f n hmono n 0 n (Nat.zero_le _) le_rfl (by omega)
    (fun k hk => absurd hk (Nat.not_lt_zero k)) (fun k hk hkn => absurd hkn (by omega))

/-- On an ascending list `sort.SearchStrings` cuts the list at the first key `>= x`. -/
theorem drop_SearchStrings {l : List String} (hl : l.Sorted (· ≤ ·)) (x : String) :
    l.drop (SearchStrings l x) = l.filter (fun k => decide (x ≤ k)) := by
  have hmono : ∀ a b, a ≤ b → b < l.length →
      decide (strLe x (l.getD a "")) = true → decide (strLe x (l.getD b "")) = true := by
    intro a b hab hb ha
    have ha' : a < l.length := by omega
    rw [decide_eq_true_eq, strLe_iff] at *
    rw [List.getD_eq_getElem _ _ ha'] at ha
    rw [List.getD_eq_getElem _ _ hb]
    rcases Nat.eq_or_lt_of_le hab with h | h
    · subst h; exact ha
    · exact le_trans ha (List.pairwise_iff_getElem.mp hl a b ha' hb h)
  obtain ⟨hn, hlo, hhi⟩ := Search_spec _ l.length hmono
  have hr : SearchStrings l x = Search l.length (fun i => decide (strLe x (l.getD i ""))) := rfl
  rw [← hr] at hn hlo hhi
  generalize SearchStrings l x = r at hn hlo hhi
  conv_rhs => rw [← List.take_append_drop r l]
  rw [List.filter_append]
  have h1 : (l.take r).filter (fun k => decide (x ≤ k)) = [] := by
    rw [List.filter_eq_nil_iff]
    intro a ha
    obtain ⟨i, hi, rfl⟩ := List.mem_iff_getElem.mp ha
    rw [List.length_take] at hi
    have hir : i < r := by omega
    have hil : i < l.length := by omega
    have := hlo i hir
    rw [List.getD_eq_getElem _ _ hil, decide_eq_false_iff_not, strLe_iff] at this
    rw [List.getElem_take]
    simpa using this
  have h2 : (l.drop r).filter (fun k => decide (x ≤ k)) = l.drop r := by
    rw [List.filter_eq_self]
    intro a ha
    obtain ⟨i, hi, rfl⟩ := List.mem_iff_getElem.mp ha
    rw [List.length_drop] at hi
    have hil : r + i < l.length := by omega
    have := hhi (r + i) (by omega) hil
    rw [List.getD_eq_getElem _ _ hil, decide_eq_true_eq, strLe_iff] at this
    rw [List.getElem_drop]
    simpa using this
  rw [h1, h2, List.nil_append]

/-! ## The loop of `Store.List` -/

theorem listLoop_unbounded (s : Store) (p : Int) (hp : p ≤ 0) :
    ∀ (ks : List String) (count : Nat) (res : List (Option Redirect)),
      listLoop s p ks count res = (res ++ ks.map s.redirects.lookup, "") := by
  intro ks
  induction ks with
  | nil => intro count res; simp [listLoop]
  | cons key rest ih =>
    intro count res
    have hn : ¬ (p > 0 ∧ (count : Int) ≥ p) := fun h => absurd h.1 (by omega)
    rw [listLoop, if_neg hn, ih]
    simp

theorem listLoop_bounded (s : Store) (p : Int) (hp : 0 < p) :
    ∀ (ks : List String) (count : Nat) (res : List (Option Redirect)), (count : Int) ≤ p →
      listLoop s p ks count res =
        (res ++ (ks.take (p.toNat - count)).map s.redirects.lookup,
          (ks[p.toNat - count]?).getD "") := by
  intro ks
  induction ks with
  | nil => intro count res _; simp [listLoop]
  | cons key rest ih =>
    intro count res hc
    by_cases hge : (count : Int) ≥ p
    · have hz : p.toNat - count = 0 := by omega
      rw [listLoop, if_pos ⟨hp, hge⟩, hz]
      simp
    · have hn : ¬ (p > 0 ∧ (count : Int) ≥ p) := fun h => hge h.2
      have hs : p.toNat - count = (p.toNat - (count + 1)) + 1 := by omega
      rw [listLoop, if_neg hn, ih (count + 1) _ (by omega), hs]
      simp

theorem List_eq_of_pos (s : Store) (token : String) (p : Int) (hp : 0 < p) :
    s.List token p =
      (((keysFrom s token).take p.toNat).map s.redirects.lookup,
        ((keysFrom s token)[p.toNat]?).getD "", none) := by
  unfold Store.List
  simp only
  rw [drop_SearchStrings (Strings_sorted_le _), listLoop_bounded s p hp _ 0 [] (by omega)]
  simp [keysFrom]

theorem List_eq_of_nonpos (s : Store) (token : String) (p : Int) (hp : p ≤ 0) :
    s.List token p = ((keysFrom s token).map s.redirects.lookup, "", none) := by
  unfold Store.List
  simp only
  rw [drop_SearchStrings (Strings_sorted_le _), listLoop_unbounded s p hp]
  simp [keysFrom]

theorem keysFrom_sorted (s : Store) (token : String) : (keysFrom s token).Sorted (· < ·) :=
  (keys_sorted s).sublist (List.filter_sublist _)

theorem mem_keysFrom {s : Store} {token k : String} :
    k ∈ keysFrom s token ↔ k ∈ s.redirects.keys ∧ token ≤ k := by
  simp [keysFrom, mem_Strings]

theorem keysFrom_empty (s : Store) : keysFrom s "" = Strings s.redirects.keys := by
  unfold keysFrom
  rw [List.filter_eq_self]
  intro a _
  simp [empty_le a]

/-! ## Keys and records -/

theorem keyed_lookup {s : Store} (hk : s.Keyed) {k : String} {r : Redirect}
    (h : s.redirects.lookup k = some r) : r.Name = k :=
  hk ⟨k, r⟩ (AList.mem_lookup_iff.mp h)

theorem exists_lookup {s : Store} {k : String} (h : k ∈ s.redirects.keys) :
    ∃ r, s.redirects.lookup k = some r := by
  have h1 : k ∈ s.redirects := h
  rw [← AList.lookup_isSome] at h1
  exact Option.isSome_iff_exists.mp h1

theorem mem_keys_of_lookup {s : Store} {k : String} {r : Redirect}
    (h : s.redirects.lookup k = some r) : k ∈ s.redirects.keys := by
  have h1 : k ∈ s.redirects := by
    rw [← AList.lookup_isSome, h]
    rfl
  exact h1

theorem keyed_iff (s : Store) :
    s.Keyed ↔ ∀ k r, s.redirects.lookup k = some r → r.Name = k := by
  constructor
  · intro hk k r h
    exact keyed_lookup hk h
  · intro h e he
    exact h e.1 e.2 (AList.mem_lookup_iff.mpr he)

theorem keyed_insert {s : Store} (hk : s.Keyed) (r : Redirect) :
    Store.Keyed ⟨s.redirects.insert r.Name r⟩ := by
  rw [keyed_iff] at hk ⊢
  intro k r2 h
  by_cases hkr : k = r.Name
  · subst hkr
    rw [AList.lookup_insert] at h
    cases h
    rfl
  · rw [AList.lookup_insert_ne hkr] at h
    exact hk k r2 h

theorem keyed_erase {s : Store} (hk : s.Keyed) (id : String) :
    Store.Keyed ⟨s.redirects.erase id⟩ := by
  rw [keyed_iff] at hk ⊢
  intro k r2 h
  by_cases hkr : k = id
  · subst hkr
    rw [AList.lookup_erase] at h
    cases h
  · rw [AList.lookup_erase_ne hkr] at h
    exact hk k r2 h

theorem dlookup_kreplace_ne (k a : String) (b : Redirect) (hk : k ≠ a) :
    ∀ l : List (Sigma fun _ : String => Redirect),
      List.dlookup k (List.kreplace a b l) = List.dlookup k l := by
  intro l
  induction l with
  | nil => rfl
  | cons hd tl ih =>
    unfold List.kreplace at ih ⊢
    by_cases h : a = hd.1
    · have hf : (fun s : Sigma fun _ : String => Redirect =>
          if a = s.1 then some (Sigma.mk a b : Sigma fun _ : String => Redirect) else none) hd
          = some (Sigma.mk a b : Sigma fun _ : String => Redirect) := if_pos h
      rw [List.lookmap_cons_some _ _ hf]
      rw [List.dlookup_cons_ne tl (Sigma.mk a b : Sigma fun _ : String => Redirect) hk,
        List.dlookup_cons_ne tl hd (h ▸ hk)]
    · have hf : (fun s : Sigma fun _ : String => Redirect =>
          if a = s.1 then some (Sigma.mk a b : Sigma fun _ : String => Redirect) else none) hd
          = none := if_neg h
      rw [List.lookmap_cons_none _ _ hf]
      by_cases hkh : k = hd.1
      · obtain ⟨k1, v1⟩ := hd
        simp only at hkh
        subst hkh
        simp
      · rw [List.dlookup_cons_ne _ hd hkh, List.dlookup_cons_ne _ hd hkh, ih]

theorem dlookup_kreplace_self (a : String) (b : Redirect) :
    ∀ l : List (Sigma fun _ : String => Redirect), a ∈ l.keys →
      List.dlookup a (List.kreplace a b l) = some b := by
  intro l
  induction l with
  | nil => intro h; simp at h
  | cons hd tl ih =>
    intro hmem
    unfold List.kreplace at ih ⊢
    by_cases h : a = hd.1
    · have hf : (fun s : Sigma fun _ : String => Redirect =>
          if a = s.1 then some (Sigma.mk a b : Sigma fun _ : String => Redirect) else none) hd
          = some (Sigma.mk a b : Sigma fun _ : String => Redirect) := if_pos h
      rw [List.lookmap_cons_some _ _ hf]
      simp
    · have hf : (fun s : Sigma fun _ : String => Redirect =>
          if a = s.1 then some (Sigma.mk a b : Sigma fun _ : String => Redirect) else none) hd
          = none := if_neg h
      rw [List.lookmap_cons_none _ _ hf]
      rw [List.dlookup_cons_ne _ hd h]
      apply ih
      simp only [List.keys_cons, List.mem_cons] at hmem
      rcases hmem with h1 | h1
      · exact absurd h1 h
      · exact h1

/-- Writing to the record under `id` leaves the other keys as they are. -/
theorem lookup_replace_ne (s : Store) {k id : String} (w : Redirect) (hk : k ≠ id) :
    (s.redirects.replace id w).lookup k = s.redirects.lookup k :=
  dlookup_kreplace_ne k id w hk s.redirects.entries

/-- After writing to the record under `id`, the key holds the record as written. -/
theorem lookup_replace_self (s : Store) {id : String} {cur : Redirect} (w : Redirect)
    (h : s.redirects.lookup id = some cur) : (s.redirects.replace id w).lookup id = some w :=
  dlookup_kreplace_self id w s.redirects.entries (mem_keys_of_lookup h)

/-- Writing nothing leaves the map as it is. -/
theorem replace_same (s : Store) {id : String} {cur : Redirect}
    (h : s.redirects.lookup id = some cur) : s.redirects.replace id cur = s.redirects := by
  apply AList.ext
  exact List.kreplace_self s.redirects.nodupKeys (AList.mem_lookup_iff.mp h)

theorem keyed_replace {s : Store} (hk : s.Keyed) {id : String} {cur : Redirect}
    (h : s.redirects.lookup id = some cur) {w : Redirect} (hw : w.Name = id) :
    Store.Keyed ⟨s.redirects.replace id w⟩ := by
  rw [keyed_iff] at hk ⊢
  intro k r2 h2
  by_cases hkr : k = id
  · subst hkr
    rw [lookup_replace_self s w h] at h2
    cases h2
    exact hw
  · rw [lookup_replace_ne s w hkr] at h2
    exact hk k r2 h2

theorem Update_err {σ : Type} (s : Store) (id : String) (f : UpdateFn σ) (env : σ)
    {cur : Redirect} {err : Error} (hcur : s.redirects.lookup id = some cur)
    (herr : (f cur env).1.err = some err) :
    s.Update id f env =
      some (((f cur env).1.result, some err), ⟨s.redirects.replace id (f cur env).1.written⟩,
        (f cur env).2) := by
  simp only [Store.Update, hcur, herr]

theorem Update_ok {σ : Type} (s : Store) (id : String) (f : UpdateFn σ) (env : σ)
    {cur r : Redirect} (hcur : s.redirects.lookup id = some cur)
    (herr : (f cur env).1.err = none) (hres : (f cur env).1.result = some r) :
    s.Update id f env =
      some ((some r, none),
        ⟨(s.redirects.replace id (f cur env).1.written).insert r.Name r⟩, (f cur env).2) := by
  simp only [Store.Update, hcur, herr, hres]

theorem Update_panic {σ : Type} (s : Store) (id : String) (f : UpdateFn σ) (env : σ)
    {cur : Redirect} (hcur : s.redirects.lookup id = some cur)
    (herr : (f cur env).1.err = none) (hres : (f cur env).1.result = none) :
    s.Update id f env = none := by
  simp only [Store.Update, hcur, herr, hres]

/-- Every store state reached with callbacks that do not rename the record they are handed
holds each record under its own name. -/
theorem keyed_of_reachable {s : Store} (h : Reachable s) : s.Keyed := by
  induction h with
  | new => intro e he; cases he
  | put s r _ ih =>
    unfold Store.Put
    split
    · exact ih
    · exact keyed_insert ih r
  | delete s id _ ih =>
    unfold Store.Delete
    split
    · exact ih
    · exact keyed_erase ih id
  | update s id updateFn env out _ hname hu ih =>
    cases hcur : s.redirects.lookup id with
    | none =>
      simp only [Store.Update, hcur] at hu
      cases hu
      exact ih
    | some cur =>
      have hw : (updateFn cur env).1.written.Name = id :=
        (hname cur hcur).trans (keyed_lookup ih hcur)
      have hkr := keyed_replace ih hcur hw
      cases herr : (updateFn cur env).1.err with
      | some err =>
        rw [Update_err s id updateFn env hcur herr] at hu
        cases hu
        exact hkr
      | none =>
        cases hres : (updateFn cur env).1.result with
        | none =>
          rw [Update_panic s id updateFn env hcur herr hres] at hu
          cases hu
        | some r =>
          rw [Update_ok s id updateFn env hcur herr hres] at hu
          cases hu
          exact keyed_insert hkr r

/-- The records a list of keys of the store stands for. -/
theorem records_of_keys (s : Store) :
    ∀ ks : List String, (∀ k ∈ ks, k ∈ s.redirects.keys) →
      ∃ rs : List Redirect, ks.map s.redirects.lookup = rs.map some ∧
        (s.Keyed → rs.map Redirect.Name = ks) ∧
        (∀ r, r ∈ rs ↔ ∃ k ∈ ks, s.redirects.lookup k = some r) := by
  intro ks
  induction ks with
  | nil => intro _; exact ⟨[], rfl, fun _ => rfl, by simp⟩
  | cons k ks ih =>
    intro hks
    obtain ⟨rs, h1, h2, h3⟩ := ih (fun a ha => hks a (List.mem_cons_of_mem _ ha))
    obtain ⟨r, hr⟩ := exists_lookup (hks k (List.mem_cons_self _ _))
    refine ⟨r :: rs, ?_, ?_, ?_⟩
    · simp [hr, h1]
    · intro hk
      simp [h2 hk, keyed_lookup hk hr]
    · intro r'
      simp only [List.mem_cons, h3, exists_eq_or_imp, hr, Option.some.injEq]
      constructor
      · rintro (h | h)
        · exact Or.inl h.symm
        · exact Or.inr h
      · rintro (h | h)
        · exact Or.inl h.symm
        · exact Or.inr h

/-- In a strictly ascending list the keys `>= y` are `y` and what follows it. -/
theorem filter_ge_of_sorted {a b : List String} {y : String}
    (h : (a ++ y :: b).Sorted (· < ·)) :
    (a ++ y :: b).filter (fun k => decide (y ≤ k)) = y :: b := by
  have hp := List.pairwise_append.mp h
  have ha : a.filter (fun k => decide (y ≤ k)) = [] := by
    rw [List.filter_eq_nil_iff]
    intro x hx
    have := hp.2.2 x hx y (List.mem_cons_self _ _)
    simpa using this
  have hb : (y :: b).filter (fun k => decide (y ≤ k)) = y :: b := by
    rw [List.filter_eq_self]
    intro x hx
    rcases List.mem_cons.mp hx with rfl | hx
    · simp
    · have := (List.pairwise_cons.mp hp.2.1).1 x hx
      simpa using le_of_lt this
  rw [List.filter_append, ha, hb, List.nil_append]

theorem listAll_length (s : Store) (k : Int) :
    ∀ (fuel : Nat) (token : String) (pages : List (List (Option Redirect))),
      listAll s k fuel token = some pages → pages.length ≤ fuel := by
  intro fuel
  induction fuel with
  | zero => intro token pages h; simp [listAll] at h
  | succ fuel ih =>
    intro token pages h
    rw [listAll] at h
    split at h
    next page next e heq =>
      by_cases hn : next = ""
      · rw [if_pos hn] at h
        cases h
        simp
      · rw [if_neg hn] at h
        cases hr : listAll s k fuel next with
        | none => rw [hr] at h; simp at h
        | some ps =>
          rw [hr] at h
          simp only [Option.map_some', Option.some.injEq] at h
          subst h
          have := ih next ps hr
          simp only [List.length_cons]
          omega

/-- Following the tokens from a cut of the sorted key list walks the rest of the list. -/
theorem listAll_from (s : Store) (k : Int) (hk : 0 < k) :
    ∀ (fuel : Nat) (pre suf : List String) (token : String),
      Strings s.redirects.keys = pre ++ suf → keysFrom s token = suf → suf.length < fuel →
      ∃ pages, listAll s k fuel token = some pages ∧
        pages.flatten = suf.map s.redirects.lookup := by
  intro fuel
  induction fuel with
  | zero => intro pre suf token _ _ h; exact absurd h (Nat.not_lt_zero _)
  | succ fuel ih =>
    intro pre suf token hK hsuf hlen
    have hn1 : 1 ≤ k.toNat := by omega
    rw [listAll, List_eq_of_pos s token k hk, hsuf]
    simp only
    cases hy : suf[k.toNat]? with
    | none =>
      have hle : suf.length ≤ k.toNat := List.getElem?_eq_none_iff.mp hy
      refine ⟨[suf.map s.redirects.lookup], ?_, by simp⟩
      simp [List.take_of_length_le hle]
    | some y =>
      have hlt : k.toNat < suf.length := (List.getElem?_eq_some_iff.mp hy).1
      have hyv : suf[k.toNat] = y := (List.getElem?_eq_some_iff.mp hy).2
      have hsplit : suf = suf.take k.toNat ++ y :: suf.drop (k.toNat + 1) := by
        conv_lhs => rw [← List.take_append_drop k.toNat suf]
        rw [List.drop_eq_getElem_cons hlt, hyv]
      have hsorted : (pre ++ suf).Sorted (· < ·) := hK ▸ keys_sorted s
      have hsuf_sorted : suf.Sorted (· < ·) := (List.pairwise_append.mp hsorted).2.1
      have hne : y ≠ "" := by
        have h0 : 0 < suf.length := by omega
        have := List.pairwise_iff_getElem.mp hsuf_sorted 0 k.toNat h0 hlt (by omega)
        rw [hyv] at this
        exact ne_empty_of_lt this
      have hK2 : Strings s.redirects.keys =
          (pre ++ suf.take k.toNat) ++ (y :: suf.drop (k.toNat + 1)) := by
        rw [hK, List.append_assoc, ← hsplit]
      have hfrom : keysFrom s y = y :: suf.drop (k.toNat + 1) := by
        unfold keysFrom
        rw [hK2]
        exact filter_ge_of_sorted (hK2 ▸ keys_sorted s)
      have hlen2 : (y :: suf.drop (k.toNat + 1)).length < fuel := by
        simp only [List.length_cons, List.length_drop]
        omega
      obtain ⟨pages, hp1, hp2⟩ := ih _ _ y hK2 hfrom hlen2
      refine ⟨(suf.take k.toNat).map s.redirects.lookup :: pages, ?_, ?_⟩
      · simp [hne, hp1]
      · rw [List.flatten_cons, hp2, ← List.map_append, ← hsplit]

theorem listAll_mono (s : Store) (k : Int) :
    ∀ (fuel : Nat) (token : String) (pages : List (List (Option Redirect))),
      listAll s k fuel token = some pages →
      ∀ fuel2, fuel ≤ fuel2 → listAll s k fuel2 token = some pages := by
  intro fuel
  induction fuel with
  | zero => intro token pages h; simp [listAll] at h
  | succ fuel ih =>
    intro token pages h fuel2 hle
    obtain ⟨m, rfl⟩ : ∃ m, fuel2 = m + 1 := ⟨fuel2 - 1, by omega⟩
    rw [listAll] at h ⊢
    by_cases hn : (s.List token k).2.1 = ""
    · simpa [hn] using h
    · simp only [hn, if_false] at h ⊢
      cases hr : listAll s k fuel (s.List token k).2.1 with
      | none => rw [hr] at h; simp at h
      | some ps =>
        rw [hr] at h
        rw [ih _ ps hr m (by omega)]
        exact h

/-- The records `List` walks from `token` on, when every key holds a record of that name. -/
theorem records_from (s : Store) (hs : s.Keyed) (token : String) :
    ∃ rs : List Redirect, (keysFrom s token).map s.redirects.lookup = rs.map some ∧
      (rs.map Redirect.Name).Sorted (· < ·) ∧
      (∀ r, r ∈ rs ↔ (∃ key, s.redirects.lookup key = some r) ∧ token ≤ r.Name) := by
  obtain ⟨rs, h1, h2, h3⟩ :=
    records_of_keys s (keysFrom s token) (fun k hk => (mem_keysFrom.mp hk).1)
  refine ⟨rs, h1, ?_, ?_⟩
  · rw [h2 hs]
    exact keysFrom_sorted s token
  · intro r
    rw [h3]
    constructor
    · rintro ⟨k, hk, hr⟩
      have hn := keyed_lookup hs hr
      exact ⟨⟨k, hr⟩, hn ▸ (mem_keysFrom.mp hk).2⟩
    · rintro ⟨⟨k, hr⟩, hle⟩
      have hn := keyed_lookup hs hr
      exact ⟨k, mem_keysFrom.mpr ⟨mem_keys_of_lookup hr, hn ▸ hle⟩, hr⟩

/-! ## Listing -/

/-- C1. Pagination completeness.  On a store whose keys are the names of the records they hold
(every store built by `Put`, `Update` and `Delete` is one) and for every page size `k > 0`:
calling `List("", k)` and then `List(nextToken, k)` until the token is empty ends after at most
`n + 1` calls, `n` the number of keys, and the pages put end to end are the stored records, in
strictly ascending order of name, each stored record once and nothing else. -/
theorem pagination_complete (s : Store) (hs : s.Keyed) (k : Int) (hk : 0 < k) :
    ∃ (pages : List (List (Option Redirect))) (rs : List Redirect),
      (∀ fuel, s.redirects.keys.length < fuel → listAll s k fuel "" = some pages) ∧
      pages.length ≤ s.redirects.keys.length + 1 ∧
      pages.flatten = rs.map some ∧
      (rs.map Redirect.Name).Sorted (· < ·) ∧
      (∀ r, r ∈ rs ↔ ∃ key, s.redirects.lookup key = some r) := by
  have hlen : (Strings s.redirects.keys).length = s.redirects.keys.length :=
    (Strings_perm _).length_eq
  obtain ⟨pages, hp1, hp2⟩ :=
    listAll_from s k hk (s.redirects.keys.length + 1) [] (Strings s.redirects.keys) ""
      rfl (keysFrom_empty s) (by omega)
  obtain ⟨rs, h1, h2, h3⟩ := records_from s hs ""
  rw [keysFrom_empty] at h1
  refine ⟨pages, rs, ?_, listAll_length s k _ _ _ hp1, hp2.trans h1, h2, ?_⟩
  · intro fuel hf
    exact listAll_mono s k _ _ _ hp1 fuel (by omega)
  · intro r
    rw [h3]
    exact ⟨fun h => h.1, fun h => ⟨h, empty_le _⟩⟩

/-- Witness of C1: the three records of `abcStore` in pages of two. -/
theorem pagination_complete_witness :
    abcStore.Keyed ∧ (0 : Int) < 2 ∧
      (∃ (pages : List (List (Option Redirect))) (rs : List Redirect),
        (∀ fuel, abcStore.redirects.keys.length < fuel →
          listAll abcStore 2 fuel "" = some pages) ∧
        pages.length ≤ abcStore.redirects.keys.length + 1 ∧
        pages.flatten = rs.map some ∧
        (rs.map Redirect.Name).Sorted (· < ·) ∧
        (∀ r, r ∈ rs ↔ ∃ key, abcStore.redirects.lookup key = some r)) ∧
      listAll abcStore 2 4 "" =
        some [[some ⟨"a", "http://a"⟩, some ⟨"b", "http://b"⟩], [some ⟨"c", "http://c"⟩]] :=
  ⟨by decide, by decide, pagination_complete abcStore (by decide) 2 (by decide), by decide⟩

/-- C2. For a page size `pagesize > 0`, with `ks` the keys `>= token` in strictly ascending
order: `List(token, pagesize)` returns the records of the first `min(pagesize, m)` keys of `ks`
(each of them a stored record), its next token is the key of `ks` right after them when there is
one and empty otherwise, and its error is nil. -/
theorem List_page (s : Store) (token : String) (pagesize : Int) (hp : 0 < pagesize) :
    ∃ ks : List String, ks.Sorted (· < ·) ∧
      (∀ k, k ∈ ks ↔ k ∈ s.redirects.keys ∧ token ≤ k) ∧
      (∀ k ∈ ks, ∃ r, s.redirects.lookup k = some r) ∧
      ((ks.take pagesize.toNat).length = min pagesize.toNat ks.length) ∧
      s.List token pagesize =
        ((ks.take pagesize.toNat).map s.redirects.lookup, (ks[pagesize.toNat]?).getD "", none) :=
  ⟨keysFrom s token, keysFrom_sorted s token, fun _ => mem_keysFrom,
    fun _ hk => exists_lookup (mem_keysFrom.mp hk).1, List.length_take _ _,
    List_eq_of_pos s token pagesize hp⟩

/-- Witness of C2: the scenario with keys `a`, `b`, `c`. -/
theorem List_page_witness :
    (0 : Int) < 2 ∧
      (∃ ks : List String, ks.Sorted (· < ·) ∧
        (∀ k, k ∈ ks ↔ k ∈ abcStore.redirects.keys ∧ "c" ≤ k) ∧
        (∀ k ∈ ks, ∃ r, abcStore.redirects.lookup k = some r) ∧
        ((ks.take (2 : Int).toNat).length = min (2 : Int).toNat ks.length) ∧
        abcStore.List "c" 2 =
          ((ks.take (2 : Int).toNat).map abcStore.redirects.lookup,
            (ks[(2 : Int).toNat]?).getD "", none)) ∧
      (∀ l ∈ abcOrders,
        (putAll l).List "" 2 =
            ([some ⟨"a", "http://a"⟩, some ⟨"b", "http://b"⟩], "c", none) ∧
          (putAll l).List "c" 2 = ([some ⟨"c", "http://c"⟩], "", none)) :=
  ⟨by decide, List_page abcStore "c" 2 (by decide), by decide⟩

/-- C3. For a page size `pagesize <= 0`, on a store whose keys are the names of the records
they hold: `List(token, pagesize)` returns exactly the stored records whose name is `>= token`,
in strictly ascending order of name, with an empty next token and a nil error; `List("", 0)`
returns all stored records so. -/
theorem List_unbounded (s : Store) (hs : s.Keyed) (token : String) (pagesize : Int)
    (hp : pagesize ≤ 0) :
    (∃ rs : List Redirect, s.List token pagesize = (rs.map some, "", none) ∧
      (rs.map Redirect.Name).Sorted (· < ·) ∧
      (∀ r, r ∈ rs ↔ (∃ key, s.redirects.lookup key = some r) ∧ token ≤ r.Name)) ∧
    (∃ rs : List Redirect, s.List "" 0 = (rs.map some, "", none) ∧
      (rs.map Redirect.Name).Sorted (· < ·) ∧
      (∀ r, r ∈ rs ↔ ∃ key, s.redirects.lookup key = some r)) := by
  constructor
  · obtain ⟨rs, h1, h2, h3⟩ := records_from s hs token
    exact ⟨rs, by rw [List_eq_of_nonpos s token pagesize hp, h1], h2, h3⟩
  · obtain ⟨rs, h1, h2, h3⟩ := records_from s hs ""
    refine ⟨rs, by rw [List_eq_of_nonpos s "" 0 le_rfl, h1], h2, ?_⟩
    intro r
    rw [h3]
    exact ⟨fun h => h.1, fun h => ⟨h, empty_le _⟩⟩

/-- Witness of C3: a negative page size on `abcStore`, from token `b`. -/
theorem List_unbounded_witness :
    abcStore.Keyed ∧ (-3 : Int) ≤ 0 ∧
      ((∃ rs : List Redirect, abcStore.List "b" (-3) = (rs.map some, "", none) ∧
        (rs.map Redirect.Name).Sorted (· < ·) ∧
        (∀ r, r ∈ rs ↔ (∃ key, abcStore.redirects.lookup key = some r) ∧ "b" ≤ r.Name)) ∧
      (∃ rs : List Redirect, abcStore.List "" 0 = (rs.map some, "", none) ∧
        (rs.map Redirect.Name).Sorted (· < ·) ∧
        (∀ r, r ∈ rs ↔ ∃ key, abcStore.redirects.lookup key = some r))) ∧
      abcStore.List "b" (-3) = ([some ⟨"b", "http://b"⟩, some ⟨"c", "http://c"⟩], "", none) :=
  ⟨by decide, by decide, List_unbounded abcStore (by decide) "b" (-3) (by decide), by decide⟩

/-! ## `Get`, `Put`, `Delete`, `Update` -/

theorem lookup_eq_none_of_not_mem {s : Store} {id : String} (h : id ∉ s.redirects.keys) :
    s.redirects.lookup id = none :=
  AList.lookup_eq_none.mpr h

/-- C4. Put/Get round trip: when `r.Name` is not a key of the store, `Put(r)` returns a nil
error and `Get(r.Name)` on the resulting store returns `r` with a nil error. -/
theorem Put_then_Get (s : Store) (r : Redirect) (h : r.Name ∉ s.redirects.keys) :
    (s.Put r).1 = none ∧ (s.Put r).2.Get r.Name = (some r, none) := by
  have hl := lookup_eq_none_of_not_mem h
  simp [Store.Put, Store.Get, hl]

/-- Witness of C4: the first scenario of the spec. -/
theorem Put_then_Get_witness :
    ("abc" ∉ New.redirects.keys) ∧
      ((New.Put ⟨"abc", "http://example.com"⟩).1 = none ∧
        (New.Put ⟨"abc", "http://example.com"⟩).2.Get "abc" =
          (some ⟨"abc", "http://example.com"⟩, none)) :=
  ⟨by decide, Put_then_Get New ⟨"abc", "http://example.com"⟩ (by decide)⟩

/-- C5. When `r.Name` is already a key, `Put(r)` returns `Conflict` and the store it leaves is
the store before the call: `Get(r.Name)` returns the record stored before, and every key looks
up as before. -/
theorem Put_conflict (s : Store) (r : Redirect) (h : r.Name ∈ s.redirects.keys) :
    s.Put r = (some Error.Conflict, s) ∧
      (∃ old, s.redirects.lookup r.Name = some old ∧
        (s.Put r).2.Get r.Name = (some old, none)) ∧
      (∀ k, (s.Put r).2.redirects.lookup k = s.redirects.lookup k) := by
  obtain ⟨old, hold⟩ := exists_lookup h
  have hput : s.Put r = (some Error.Conflict, s) := by simp [Store.Put, hold]
  refine ⟨hput, ⟨old, hold, ?_⟩, ?_⟩
  · simp [hput, Store.Get, hold]
  · intro k
    rw [hput]

/-- Witness of C5: the fourth scenario of the spec, `x` put twice with different targets. -/
theorem Put_conflict_witness :
    ("x" ∈ (New.Put ⟨"x", "first"⟩).2.redirects.keys) ∧
      ((New.Put ⟨"x", "first"⟩).2.Put ⟨"x", "second"⟩ =
          (some Error.Conflict, (New.Put ⟨"x", "first"⟩).2) ∧
        (∃ old, (New.Put ⟨"x", "first"⟩).2.redirects.lookup "x" = some old ∧
          ((New.Put ⟨"x", "first"⟩).2.Put ⟨"x", "second"⟩).2.Get "x" = (some old, none)) ∧
        (∀ k, ((New.Put ⟨"x", "first"⟩).2.Put ⟨"x", "second"⟩).2.redirects.lookup k =
          (New.Put ⟨"x", "first"⟩).2.redirects.lookup k)) ∧
      ((New.Put ⟨"x", "first"⟩).2.Put ⟨"x", "second"⟩).2.Get "x" = (some ⟨"x", "first"⟩, none) :=
  ⟨by decide, Put_conflict (New.Put ⟨"x", "first"⟩).2 ⟨"x", "second"⟩ (by decide), by decide⟩

/-- C6. When `id` is not a key: `Get(id)`, `Delete(id)` and `Update(id, mutate)` return
`NotFound` and leave the store as it was; `Update` does not run `mutate`: the state of the
closure is unchanged, and a closure that counts its calls has the count it had. -/
theorem absent_NotFound (s : Store) (id : String) (h : id ∉ s.redirects.keys) :
    s.Get id = (none, some Error.NotFound) ∧
      s.Delete id = (some Error.NotFound, s) ∧
      (∀ (σ : Type) (mutate : UpdateFn σ) (env : σ),
        s.Update id mutate env = some ((none, some Error.NotFound), s, env)) ∧
      (∀ (σ : Type) (mutate : UpdateFn σ) (env : σ) (n : Nat),
        s.Update id (counting mutate) (env, n) =
          some ((none, some Error.NotFound), s, (env, n))) := by
  have hl := lookup_eq_none_of_not_mem h
  refine ⟨by simp [Store.Get, hl], by simp [Store.Delete, hl], ?_, ?_⟩
  · intro σ mutate env
    simp [Store.Update, hl]
  · intro σ mutate env n
    simp [Store.Update, hl]

/-- Witness of C6: key `d` is absent from `abcStore`. -/
theorem absent_NotFound_witness :
    ("d" ∉ abcStore.redirects.keys) ∧
      (abcStore.Get "d" = (none, some Error.NotFound) ∧
        abcStore.Delete "d" = (some Error.NotFound, abcStore) ∧
        (∀ (σ : Type) (mutate : UpdateFn σ) (env : σ),
          abcStore.Update "d" mutate env = some ((none, some Error.NotFound), abcStore, env)) ∧
        (∀ (σ : Type) (mutate : UpdateFn σ) (env : σ) (n : Nat),
          abcStore.Update "d" (counting mutate) (env, n) =
            some ((none, some Error.NotFound), abcStore, (env, n)))) :=
  ⟨by decide, absent_NotFound abcStore "d" (by decide)⟩

/-- C7. When `id` is a key, `Delete(id)` returns a nil error; on the resulting store `Get(id)`
returns `NotFound`, and every other key looks up, and is answered by `Get`, as before. -/
theorem Delete_present (s : Store) (id : String) (h : id ∈ s.redirects.keys) :
    (s.Delete id).1 = none ∧
      (s.Delete id).2.Get id = (none, some Error.NotFound) ∧
      (∀ k, k ≠ id → (s.Delete id).2.redirects.lookup k = s.redirects.lookup k) ∧
      (∀ k, k ≠ id → (s.Delete id).2.Get k = s.Get k) := by
  obtain ⟨old, hold⟩ := exists_lookup h
  have hd : s.Delete id = (none, ⟨s.redirects.erase id⟩) := by simp [Store.Delete, hold]
  rw [hd]
  refine ⟨rfl, ?_, ?_, ?_⟩
  · simp [Store.Get, AList.lookup_erase]
  · intro k hk
    exact AList.lookup_erase_ne hk
  · intro k hk
    simp only [Store.Get, AList.lookup_erase_ne hk]

/-- Witness of C7: deleting `b` from `abcStore`. -/
theorem Delete_present_witness :
    ("b" ∈ abcStore.redirects.keys) ∧
      ((abcStore.Delete "b").1 = none ∧
        (abcStore.Delete "b").2.Get "b" = (none, some Error.NotFound) ∧
        (∀ k, k ≠ "b" → (abcStore.Delete "b").2.redirects.lookup k = abcStore.redirects.lookup k) ∧
        (∀ k, k ≠ "b" → (abcStore.Delete "b").2.Get k = abcStore.Get k)) ∧
      (abcStore.Delete "b").2.Get "a" = (some ⟨"a", "http://a"⟩, none) :=
  ⟨by decide, Delete_present abcStore "b" (by decide), by decide⟩

/-- C8, as stated, fails for a callback that writes to the record it is handed: `rename`
sets the name of the stored record of `b` to `z` and returns that record; it is stored under
`z`, and the key `b`, which is not the name of the record returned, no longer holds what it
held before the call. -/
theorem Update_frame_fails :
    abcStore.redirects.lookup "b" = some ⟨"b", "http://b"⟩ ∧
      (rename "z" ⟨"b", "http://b"⟩ ()).1.result = some ⟨"z", "http://b"⟩ ∧
      (rename "z" ⟨"b", "http://b"⟩ ()).1.err = none ∧
      "b" ≠ (Redirect.mk "z" "http://b").Name ∧
      (abcStore.Update "b" (rename "z") ()).map
          (fun out => (out.1, out.2.1.redirects.lookup "b")) =
        some ((some ⟨"z", "http://b"⟩, none), some ⟨"z", "http://b"⟩) := by
  decide

/-- C8, amended.  When `id` holds the record `cur` and `mutate`, run on `cur`, returns
`newRecord` with a nil error: `Update(id, mutate)` returns `newRecord` with a nil error; the
closure has run exactly once, on `cur` (its state is the state after that one run, and a
closure that counts its calls has counted one more); the resulting store holds `newRecord`
under `newRecord.Name`.  When `mutate` has not written to the record it was handed, every
other key looks up as before.  When it has, in a store whose keys are the names of its
records: the key `id`, if it is not `newRecord.Name`, holds the record as `mutate` left it, and
every key other than these two looks up as before. -/
theorem Update_success {σ : Type} (s : Store) (id : String) (mutate : UpdateFn σ) (env : σ)
    (cur newRecord : Redirect)
    (hcur : s.redirects.lookup id = some cur)
    (herr : (mutate cur env).1.err = none)
    (hres : (mutate cur env).1.result = some newRecord) :
    ∃ s2 : Store,
      s.Update id mutate env = some ((some newRecord, none), s2, (mutate cur env).2) ∧
      (∀ n : Nat, s.Update id (counting mutate) (env, n) =
        some ((some newRecord, none), s2, ((mutate cur env).2, n + 1))) ∧
      s2.redirects.lookup newRecord.Name = some newRecord ∧
      ((mutate cur env).1.written = cur →
        ∀ k, k ≠ newRecord.Name → s2.redirects.lookup k = s.redirects.lookup k) ∧
      (s.Keyed →
        (id ≠ newRecord.Name → s2.redirects.lookup id = some (mutate cur env).1.written) ∧
        (∀ k, k ≠ newRecord.Name → k ≠ id → s2.redirects.lookup k = s.redirects.lookup k)) := by
  refine ⟨⟨(s.redirects.replace id (mutate cur env).1.written).insert newRecord.Name
    newRecord⟩, Update_ok s id mutate env hcur herr hres, ?_, AList.lookup_insert _, ?_, ?_⟩
  · intro n
    exact Update_ok s id (counting mutate) (env, n) hcur herr hres
  · intro hw k hk
    show ((s.redirects.replace id (mutate cur env).1.written).insert newRecord.Name
      newRecord).lookup k = _
    rw [AList.lookup_insert_ne hk, hw, replace_same s hcur]
  · intro _
    constructor
    · intro hid
      show ((s.redirects.replace id (mutate cur env).1.written).insert newRecord.Name
        newRecord).lookup id = _
      rw [AList.lookup_insert_ne hid, lookup_replace_self s _ hcur]
    · intro k hk hkid
      show ((s.redirects.replace id (mutate cur env).1.written).insert newRecord.Name
        newRecord).lookup k = _
      rw [AList.lookup_insert_ne hk, lookup_replace_ne s _ hkid]

/-- Witness of C8: a copy of the record of `b` stored under the name `z`. -/
theorem Update_success_witness :
    abcStore.redirects.lookup "b" = some ⟨"b", "http://b"⟩ ∧
      (copyAs "z" ⟨"b", "http://b"⟩ ()).1.err = none ∧
      (copyAs "z" ⟨"b", "http://b"⟩ ()).1.result = some ⟨"z", "http://b"⟩ ∧
      (∃ s2 : Store,
        abcStore.Update "b" (copyAs "z") () =
          some ((some ⟨"z", "http://b"⟩, none), s2, (copyAs "z" ⟨"b", "http://b"⟩ ()).2) ∧
        (∀ n : Nat, abcStore.Update "b" (counting (copyAs "z")) ((), n) =
          some ((some ⟨"z", "http://b"⟩, none), s2,
            ((copyAs "z" ⟨"b", "http://b"⟩ ()).2, n + 1))) ∧
        s2.redirects.lookup (Redirect.mk "z" "http://b").Name = some ⟨"z", "http://b"⟩ ∧
        ((copyAs "z" ⟨"b", "http://b"⟩ ()).1.written = ⟨"b", "http://b"⟩ →
          ∀ k, k ≠ (Redirect.mk "z" "http://b").Name →
            s2.redirects.lookup k = abcStore.redirects.lookup k) ∧
        (abcStore.Keyed →
          ("b" ≠ (Redirect.mk "z" "http://b").Name →
            s2.redirects.lookup "b" = some (copyAs "z" ⟨"b", "http://b"⟩ ()).1.written) ∧
          (∀ k, k ≠ (Redirect.mk "z" "http://b").Name → k ≠ "b" →
            s2.redirects.lookup k = abcStore.redirects.lookup k))) ∧
      (abcStore.Update "b" (retarget "http://new") ()).map
          (fun out => (out.1, out.2.1.redirects.lookup "b")) =
        some ((some ⟨"b", "http://new"⟩, none), some ⟨"b", "http://new"⟩) :=
  ⟨by decide, by decide, by decide,
    Update_success abcStore "b" (copyAs "z") () ⟨"b", "http://b"⟩ ⟨"z", "http://b"⟩
      (by decide) (by decide) (by decide),
    by decide⟩

/-- C9, as stated, fails for a callback that writes to the record it is handed before it
fails: `scribble` sets the target of the stored record of `b` and returns an error; `Update`
returns the error and the store holds the record as written. -/
theorem Update_error_writes :
    abcStore.redirects.lookup "b" = some ⟨"b", "http://b"⟩ ∧
      (scribble "mut" "no" ⟨"b", "http://b"⟩ ()).1.err = some (Error.Other "no") ∧
      (abcStore.Update "b" (scribble "mut" "no") ()).map
          (fun out => (out.1.2, out.2.1.redirects.lookup "b")) =
        some (some (Error.Other "no"), some ⟨"b", "mut"⟩) := by
  decide

/-- C9, amended.  When `id` holds the record `cur` and `mutate`, run on `cur`, returns the
error `err`: `Update(id, mutate)` returns what `mutate` returned, `err` included.  When
`mutate` has not written to the record it was handed, the store after the call is the store
before it.  When it has, in a store whose keys are the names of its records: the key `id`
holds the record as `mutate` left it and every other key looks up as before. -/
theorem Update_mutate_error {σ : Type} (s : Store) (id : String) (mutate : UpdateFn σ) (env : σ)
    (cur : Redirect) (err : Error)
    (hcur : s.redirects.lookup id = some cur)
    (herr : (mutate cur env).1.err = some err) :
    ∃ s2 : Store,
      s.Update id mutate env =
        some (((mutate cur env).1.result, some err), s2, (mutate cur env).2) ∧
      ((mutate cur env).1.written = cur → s2 = s) ∧
      (s.Keyed →
        s2.redirects.lookup id = some (mutate cur env).1.written ∧
        (∀ k, k ≠ id → s2.redirects.lookup k = s.redirects.lookup k)) := by
  refine ⟨⟨s.redirects.replace id (mutate cur env).1.written⟩,
    Update_err s id mutate env hcur herr, ?_, ?_⟩
  · intro hw
    rw [hw, replace_same s hcur]
  · intro _
    exact ⟨lookup_replace_self s _ hcur, fun k hk => lookup_replace_ne s _ hk⟩

/-- Witness of C9: a callback that refuses without writing, on key `b` of `abcStore`. -/
theorem Update_mutate_error_witness :
    abcStore.redirects.lookup "b" = some ⟨"b", "http://b"⟩ ∧
      (refuse "no" ⟨"b", "http://b"⟩ ()).1.err = some (Error.Other "no") ∧
      (∃ s2 : Store,
        abcStore.Update "b" (refuse "no") () =
          some (((refuse "no" ⟨"b", "http://b"⟩ ()).1.result, some (Error.Other "no")), s2,
            (refuse "no" ⟨"b", "http://b"⟩ ()).2) ∧
        ((refuse "no" ⟨"b", "http://b"⟩ ()).1.written = ⟨"b", "http://b"⟩ → s2 = abcStore) ∧
        (abcStore.Keyed →
          s2.redirects.lookup "b" = some (refuse "no" ⟨"b", "http://b"⟩ ()).1.written ∧
          (∀ k, k ≠ "b" → s2.redirects.lookup k = abcStore.redirects.lookup k))) ∧
      (abcStore.Update "b" (refuse "no") ()).map
          (fun out => (out.1, out.2.1.redirects.lookup "b")) =
        some ((some ⟨"b", "http://b"⟩, some (Error.Other "no")), some ⟨"b", "http://b"⟩) :=
  ⟨by decide, by decide,
    Update_mutate_error abcStore "b" (refuse "no") () ⟨"b", "http://b"⟩ (Error.Other "no")
      (by decide) (by decide),
    by decide⟩

/-! ## The merge callback of `UpdateRedirect` -/

/-- The merge callback writes the merge into the record it is handed and returns that record
with a nil error. -/
theorem upFn_result (paths : List String) (old req : Redirect) :
    (upFn paths old req).1 =
      ⟨Merge old (Filter (Prune req immutableFields) paths), Returned.same, none⟩ := rfl

theorem Filter_Prune_name (paths : List String) (req : Redirect) :
    (Filter (Prune req immutableFields) paths).Name = "" := by
  have hp : (Prune req immutableFields).Name = "" := by
    simp [Prune, immutableFields]
  unfold Filter
  split
  · exact hp
  · simp only
    split
    · exact hp
    · rfl

theorem Merge_upFn_name (paths : List String) (old req : Redirect) :
    (Merge old (Filter (Prune req immutableFields) paths)).Name = old.Name := by
  simp [Merge, Filter_Prune_name]

/-- C10. Immutable name: for every stored record `old`, every submitted record `partial` and
every mask that is valid against the message (a mask that lists `name` included), the merge
callback returns, with a nil error, a record whose name is the name of `old` (the record it
was handed, with the merge written into it). -/
theorem upFn_keeps_name (paths : List String) (old req : Redirect)
    (_hv : IsValid paths = true) :
    ∃ r, (upFn paths old req).1 = ⟨r, Returned.same, none⟩ ∧ r.Name = old.Name :=
  ⟨Merge old (Filter (Prune req immutableFields) paths), rfl, Merge_upFn_name paths old req⟩

/-- Witness of C10: the third scenario of the spec. -/
theorem upFn_keeps_name_witness :
    IsValid ["name", "target"] = true ∧
      (∃ r, (upFn ["name", "target"] ⟨"abc", "old"⟩ ⟨"xyz", "new"⟩).1 = ⟨r, Returned.same, none⟩ ∧
        r.Name = (Redirect.mk "abc" "old").Name) ∧
      (upFn ["name", "target"] ⟨"abc", "old"⟩ ⟨"xyz", "new"⟩).1 = ⟨⟨"abc", "new"⟩, Returned.same, none⟩ :=
  ⟨by decide, upFn_keeps_name ["name", "target"] ⟨"abc", "old"⟩ ⟨"xyz", "new"⟩ (by decide),
    by decide⟩

/-- C11, as stated, fails on the empty mask: the mask is valid and does not name `target`, the
submitted record carries another non-empty target, and the merged record has that target and
not the stored one. -/
theorem unmasked_untouched_fails :
    IsValid [] = true ∧ "target" ∉ ([] : List String) ∧
      (upFn [] ⟨"abc", "old"⟩ ⟨"abc", "new"⟩).1 = ⟨⟨"abc", "new"⟩, Returned.same, none⟩ ∧
      (Redirect.mk "abc" "new").Target ≠ (Redirect.mk "abc" "old").Target := by
  decide

/-- C11, amended.  For every stored record, every submitted record and every valid mask that
is not empty, each field the mask does not name has in the merged record the value it has in
the stored record, whatever the submitted record carries for it.  With the empty mask nothing
is filtered: the name is kept, and the target is the submitted one when that is not empty and
the stored one otherwise. -/
theorem unmasked_untouched (paths : List String) (old req : Redirect)
    (_hv : IsValid paths = true) (hne : paths ≠ []) :
    (∃ r, (upFn paths old req).1 = ⟨r, Returned.same, none⟩ ∧
      ("name" ∉ paths → r.Name = old.Name) ∧ ("target" ∉ paths → r.Target = old.Target)) ∧
    (upFn [] old req).1 =
      ⟨⟨old.Name, if req.Target = "" then old.Target else req.Target⟩, Returned.same, none⟩ := by
  constructor
  · refine ⟨_, upFn_result paths old req, ?_, ?_⟩
    · intro hn
      simp [Merge, Filter, Prune, immutableFields, hne, hn]
    · intro ht
      simp [Merge, Filter, Prune, immutableFields, hne, ht]
  · simp [upFn, Merge, Filter, Prune, immutableFields]

/-- Witness of C11: the mask `name` alone leaves a submitted target out of the merge. -/
theorem unmasked_untouched_witness :
    IsValid ["name"] = true ∧ (["name"] : List String) ≠ [] ∧
      ((∃ r, (upFn ["name"] ⟨"abc", "old"⟩ ⟨"xyz", "new"⟩).1 = ⟨r, Returned.same, none⟩ ∧
        ("name" ∉ (["name"] : List String) → r.Name = (Redirect.mk "abc" "old").Name) ∧
        ("target" ∉ (["name"] : List String) → r.Target = (Redirect.mk "abc" "old").Target)) ∧
      (upFn [] ⟨"abc", "old"⟩ ⟨"xyz", "new"⟩).1 =
        ⟨⟨(Redirect.mk "abc" "old").Name,
          if (Redirect.mk "xyz" "new").Target = "" then (Redirect.mk "abc" "old").Target
          else (Redirect.mk "xyz" "new").Target⟩, Returned.same, none⟩) ∧
      (upFn ["name"] ⟨"abc", "old"⟩ ⟨"xyz", "new"⟩).1 = ⟨⟨"abc", "old"⟩, Returned.same, none⟩ :=
  ⟨by decide, by decide,
    unmasked_untouched ["name"] ⟨"abc", "old"⟩ ⟨"xyz", "new"⟩ (by decide) (by decide),
    by decide⟩

/-- C12, as stated, fails on the empty string: the mask is valid and names `target`, the
submitted record carries the empty target, and the merged record keeps the stored target. -/
theorem masked_overwritten_fails :
    IsValid ["target"] = true ∧ "target" ∈ (["target"] : List String) ∧
      (upFn ["target"] ⟨"abc", "old"⟩ ⟨"abc", ""⟩).1 = ⟨⟨"abc", "old"⟩, Returned.same, none⟩ ∧
      (Redirect.mk "abc" "old").Target ≠ (Redirect.mk "abc" "").Target := by
  decide

/-- C12, amended.  For every stored record, every submitted record and every valid mask that
names `target`: the merged record has the submitted target when that is not the empty string,
and the stored target when it is. -/
theorem masked_overwritten (paths : List String) (old req : Redirect)
    (_hv : IsValid paths = true) (ht : "target" ∈ paths) :
    ∃ r, (upFn paths old req).1 = ⟨r, Returned.same, none⟩ ∧
      (req.Target ≠ "" → r.Target = req.Target) ∧ (req.Target = "" → r.Target = old.Target) := by
  have hne : paths ≠ [] := List.ne_nil_of_mem ht
  refine ⟨_, upFn_result paths old req, ?_, ?_⟩
  · intro h
    simp [Merge, Filter, Prune, immutableFields, hne, ht, h]
  · intro h
    simp [Merge, Filter, Prune, immutableFields, hne, ht, h]

/-- Witness of C12: the mask `target` with a new target. -/
theorem masked_overwritten_witness :
    IsValid ["target"] = true ∧ "target" ∈ (["target"] : List String) ∧
      (∃ r, (upFn ["target"] ⟨"abc", "old"⟩ ⟨"abc", "new"⟩).1 = ⟨r, Returned.same, none⟩ ∧
        ((Redirect.mk "abc" "new").Target ≠ "" → r.Target = (Redirect.mk "abc" "new").Target) ∧
        ((Redirect.mk "abc" "new").Target = "" → r.Target = (Redirect.mk "abc" "old").Target)) ∧
      (upFn ["target"] ⟨"abc", "old"⟩ ⟨"abc", "new"⟩).1 = ⟨⟨"abc", "new"⟩, Returned.same, none⟩ :=
  ⟨by decide, by decide,
    masked_overwritten ["target"] ⟨"abc", "old"⟩ ⟨"abc", "new"⟩ (by decide) (by decide),
    by decide⟩

/-! ## Invariant, tokens and reads -/

/-- C13, as stated, fails for a callback that renames the record it is handed: after
`Put({b, http://b})` and `Update(b, rename z)` the key `b` holds a record named `z`, and the
keys `b` and `z` hold records of the same name. -/
theorem invariant_fails :
    ((New.Put ⟨"b", "http://b"⟩).2.Update "b" (rename "z") ()).map
        (fun out => (out.1, out.2.1.redirects.lookup "b", out.2.1.redirects.lookup "z")) =
      some ((some ⟨"z", "http://b"⟩, none), some ⟨"z", "http://b"⟩, some ⟨"z", "http://b"⟩) ∧
      (Redirect.mk "z" "http://b").Name ≠ "b" := by
  decide

/-- C13, amended.  Store invariant: in every store state reached from `New()` by `Put`,
`Delete` and `Update` calls whose callbacks leave the name of the record they are handed as it
is (they may return any record), every key holds a record whose name is that key; hence two
keys never hold records of the same name. -/
theorem store_invariant (s : Store) (h : Reachable s) :
    (∀ k r, s.redirects.lookup k = some r → r.Name = k) ∧
      (∀ k1 k2 r1 r2, s.redirects.lookup k1 = some r1 → s.redirects.lookup k2 = some r2 →
        r1.Name = r2.Name → k1 = k2 ∧ r1 = r2) := by
  have hk := (keyed_iff s).mp (keyed_of_reachable h)
  refine ⟨hk, ?_⟩
  intro k1 k2 r1 r2 h1 h2 hn
  have e1 := hk k1 r1 h1
  have e2 := hk k2 r2 h2
  have hkk : k1 = k2 := by rw [← e1, ← e2, hn]
  subst hkk
  rw [h1] at h2
  exact ⟨rfl, Option.some.inj h2⟩

/-- Witness of C13: `movedStore`, made with `Put`, `Delete` and an `Update` that stores a copy
under another name. -/
theorem store_invariant_witness :
    Reachable movedStore ∧
      ((∀ k r, movedStore.redirects.lookup k = some r → r.Name = k) ∧
        (∀ k1 k2 r1 r2, movedStore.redirects.lookup k1 = some r1 →
          movedStore.redirects.lookup k2 = some r2 → r1.Name = r2.Name → k1 = k2 ∧ r1 = r2)) ∧
      movedStore.List "" 0 =
        ([some ⟨"b", "http://b"⟩, some ⟨"c", "http://c"⟩, some ⟨"z", "http://b"⟩], "", none) :=
  have hr : Reachable movedStore :=
    Reachable.update (abcStore.Delete "a").2 "b" (copyAs "z") ()
      ((some ⟨"z", "http://b"⟩, none), movedStore, ())
      (Reachable.delete abcStore "a"
        (Reachable.put _ ⟨"c", "http://c"⟩
          (Reachable.put _ ⟨"a", "http://a"⟩ (Reachable.put New ⟨"b", "http://b"⟩ Reachable.new))))
      (fun _ _ => rfl)
      rfl
  ⟨hr, store_invariant movedStore hr, by decide⟩

theorem take_lt_of_sorted {ks : List String} (h : ks.Sorted (· < ·)) {n : Nat}
    (hn : n < ks.length) : ∀ k ∈ ks.take n, k < ks[n] := by
  intro k hk
  have hsplit : ks.take n ++ ks.drop n = ks := List.take_append_drop n ks
  have hp : (ks.take n ++ ks.drop n).Sorted (· < ·) := by rw [hsplit]; exact h
  have hmem : ks[n] ∈ ks.drop n := by
    rw [List.drop_eq_getElem_cons hn]
    exact List.mem_cons_self _ _
  exact (List.pairwise_append.mp hp).2.2 k hk _ hmem

theorem mem_page_of_stored {s : Store} {token key : String} {r : Redirect}
    (hr : s.redirects.lookup key = some r) (hle : token ≤ key) :
    some r ∈ (keysFrom s token).map s.redirects.lookup :=
  List.mem_map.mpr ⟨key, mem_keysFrom.mpr ⟨mem_keys_of_lookup hr, hle⟩, hr⟩

/-- C18. On a store whose keys are the names of the records they hold, for every token and
page size: the next token of `List` is empty exactly when every stored record with a key
`>= token` is in the page; when it is not empty it is a key of the store, strictly greater than
the name of every record in the page, and the page holds exactly `pagesize` records. -/
theorem List_nextToken (s : Store) (hs : s.Keyed) (token : String) (pagesize : Int) :
    ((s.List token pagesize).2.1 = "" ↔
        ∀ key r, s.redirects.lookup key = some r → token ≤ key →
          some r ∈ (s.List token pagesize).1) ∧
      ((s.List token pagesize).2.1 ≠ "" →
        (s.List token pagesize).2.1 ∈ s.redirects.keys ∧
        (∀ r, some r ∈ (s.List token pagesize).1 → r.Name < (s.List token pagesize).2.1) ∧
        ((s.List token pagesize).1.length : Int) = pagesize) := by
  by_cases hp : 0 < pagesize
  · rw [List_eq_of_pos s token pagesize hp]
    simp only
    cases hy : (keysFrom s token)[pagesize.toNat]? with
    | none =>
      have hle : (keysFrom s token).length ≤ pagesize.toNat := List.getElem?_eq_none_iff.mp hy
      rw [List.take_of_length_le hle]
      simp only [Option.getD_none, ne_eq, not_true_eq_false, false_implies, and_true, true_iff]
      intro key r hr hk
      exact mem_page_of_stored hr hk
    | some y =>
      have hlt : pagesize.toNat < (keysFrom s token).length :=
        (List.getElem?_eq_some_iff.mp hy).1
      have hyv : (keysFrom s token)[pagesize.toNat] = y := (List.getElem?_eq_some_iff.mp hy).2
      have hsorted := keysFrom_sorted s token
      have hbelow : ∀ k ∈ (keysFrom s token).take pagesize.toNat, k < y := by
        intro k hk
        have := take_lt_of_sorted hsorted hlt k hk
        rwa [hyv] at this
      have hymem : y ∈ keysFrom s token := hyv ▸ List.getElem_mem _
      have hne : y ≠ "" := by
        have h0 : 0 < (keysFrom s token).length := by omega
        have h1 : 0 < pagesize.toNat := by omega
        have := List.pairwise_iff_getElem.mp hsorted 0 pagesize.toNat h0 hlt h1
        rw [hyv] at this
        exact ne_empty_of_lt this
      have hname : ∀ r, some r ∈ ((keysFrom s token).take pagesize.toNat).map
          s.redirects.lookup → r.Name < y := by
        intro r hr
        obtain ⟨k, hk, hkr⟩ := List.mem_map.mp hr
        rw [keyed_lookup hs hkr]
        exact hbelow k hk
      simp only [Option.getD_some]
      refine ⟨iff_of_false hne ?_, fun _ => ⟨(mem_keysFrom.mp hymem).1, hname, ?_⟩⟩
      · intro hall
        obtain ⟨r, hr⟩ := exists_lookup (mem_keysFrom.mp hymem).1
        have h1 := hname r (hall y r hr (mem_keysFrom.mp hymem).2)
        rw [keyed_lookup hs hr] at h1
        exact lt_irrefl y h1
      · rw [List.length_map, List.length_take, Nat.min_eq_left (le_of_lt hlt)]
        exact Int.toNat_of_nonneg (le_of_lt hp)
  · rw [List_eq_of_nonpos s token pagesize (not_lt.mp hp)]
    simp only [ne_eq, not_true_eq_false, false_implies, and_true, true_iff]
    intro key r hr hk
    exact mem_page_of_stored hr hk

/-- Witness of C18: pages of two from `abcStore`, and a record whose name is empty. -/
theorem List_nextToken_witness :
    abcStore.Keyed ∧
      (((abcStore.List "" 2).2.1 = "" ↔
          ∀ key r, abcStore.redirects.lookup key = some r → "" ≤ key →
            some r ∈ (abcStore.List "" 2).1) ∧
        ((abcStore.List "" 2).2.1 ≠ "" →
          (abcStore.List "" 2).2.1 ∈ abcStore.redirects.keys ∧
          (∀ r, some r ∈ (abcStore.List "" 2).1 → r.Name < (abcStore.List "" 2).2.1) ∧
          ((abcStore.List "" 2).1.length : Int) = 2)) ∧
      (abcStore.List "" 2).2.1 = "c" ∧
      (putAll [⟨"b", "http://b"⟩, ⟨"", "http://root"⟩]).List "" 1 =
        ([some ⟨"", "http://root"⟩], "b", none) :=
  ⟨by decide, List_nextToken abcStore (by decide) "" 2, by decide, by decide⟩

theorem listLoop_congr (s1 s2 : Store)
    (h : ∀ k, s1.redirects.lookup k = s2.redirects.lookup k) (p : Int) :
    ∀ (ks : List String) (count : Nat) (res : List (Option Redirect)),
      listLoop s1 p ks count res = listLoop s2 p ks count res := by
  intro ks
  induction ks with
  | nil => intro count res; rfl
  | cons key rest ih =>
    intro count res
    rw [listLoop, listLoop, h key, ih]

theorem Strings_keys_of_perm {s1 s2 : Store}
    (hp : s1.redirects.entries.Perm s2.redirects.entries) :
    Strings s1.redirects.keys = Strings s2.redirects.keys := by
  have hk : s1.redirects.keys.Perm s2.redirects.keys := hp.map Sigma.fst
  have h12 : (Strings s1.redirects.keys).Perm (Strings s2.redirects.keys) :=
    ((Strings_perm _).trans hk).trans (Strings_perm _).symm
  exact List.eq_of_perm_of_sorted h12 (Strings_sorted_le _) (Strings_sorted_le _)

/-- C20. `Get` and `List` are read-only: the store after the call is the store before it,
whether the call fails or not; a second identical call returns what the first returned; and
the results do not depend on the order in which the map holds its entries. -/
theorem reads_leave_store (s : Store) (id token : String) (pagesize : Int) :
    (memOps.Get s id).2 = s ∧ (memOps.List s token pagesize).2 = s ∧
      memOps.Get (memOps.Get s id).2 id = memOps.Get s id ∧
      memOps.List (memOps.List s token pagesize).2 token pagesize =
        memOps.List s token pagesize ∧
      (∀ s2 : Store, s.redirects.entries.Perm s2.redirects.entries →
        s2.Get id = s.Get id ∧ s2.List token pagesize = s.List token pagesize) := by
  refine ⟨rfl, rfl, rfl, rfl, ?_⟩
  intro s2 hp
  have hl : ∀ k, s2.redirects.lookup k = s.redirects.lookup k :=
    fun k => (AList.perm_lookup hp).symm
  constructor
  · simp only [Store.Get, hl id]
  · simp only [Store.List, Strings_keys_of_perm hp, listLoop_congr s2 s hl]

/-- Witness of C20: `abcStore` and the same records put in another order. -/
theorem reads_leave_store_witness :
    abcStore.redirects.entries.Perm
        (putAll [⟨"c", "http://c"⟩, ⟨"b", "http://b"⟩, ⟨"a", "http://a"⟩]).redirects.entries ∧
      ((memOps.Get abcStore "b").2 = abcStore ∧ (memOps.List abcStore "" 2).2 = abcStore ∧
        memOps.Get (memOps.Get abcStore "b").2 "b" = memOps.Get abcStore "b" ∧
        memOps.List (memOps.List abcStore "" 2).2 "" 2 = memOps.List abcStore "" 2 ∧
        (∀ s2 : Store, abcStore.redirects.entries.Perm s2.redirects.entries →
          s2.Get "b" = abcStore.Get "b" ∧ s2.List "" 2 = abcStore.List "" 2)) ∧
      (memOps.Get abcStore "d").2 = abcStore :=
  ⟨by decide, reads_leave_store abcStore "b" "" 2, rfl⟩

/-! ## Bytes of a string and base64 -/

theorem char_toNat_lt (c : Char) : c.toNat < 1114112 := by
  rcases c.valid with h | h
  · have h1 : c.toNat < 55296 := h
    omega
  · have h1 : c.toNat < 1114112 := h.2
    exact h1

theorem utf8DecodeChar_encode (c : Char) (rest : List Nat) :
    utf8DecodeChar (utf8EncodeChar c ++ rest) = some (c, rest) := by
  have hv := char_toNat_lt c
  unfold utf8EncodeChar
  by_cases h1 : c.toNat < 128
  · rw [if_pos h1]
    show utf8DecodeChar (c.toNat :: rest) = _
    simp only [utf8DecodeChar, if_pos h1, Char.ofNat_toNat]
  · rw [if_neg h1]
    by_cases h2 : c.toNat < 2048
    · rw [if_pos h2]
      show utf8DecodeChar ((192 + c.toNat / 64) :: (128 + c.toNat % 64) :: rest) = _
      have a1 : ¬ 192 + c.toNat / 64 < 128 := by omega
      have a2 : ¬ 192 + c.toNat / 64 < 192 := by omega
      have a3 : 192 + c.toNat / 64 < 224 := by omega
      have e : (192 + c.toNat / 64 - 192) * 64 + (128 + c.toNat % 64 - 128) = c.toNat := by
        omega
      simp only [utf8DecodeChar, if_neg a1, if_neg a2, if_pos a3, e, Char.ofNat_toNat]
    · rw [if_neg h2]
      by_cases h3 : c.toNat < 65536
      · rw [if_pos h3]
        show utf8DecodeChar ((224 + c.toNat / 4096) :: (128 + c.toNat / 64 % 64) ::
          (128 + c.toNat % 64) :: rest) = _
        have a1 : ¬ 224 + c.toNat / 4096 < 128 := by omega
        have a2 : ¬ 224 + c.toNat / 4096 < 192 := by omega
        have a3 : ¬ 224 + c.toNat / 4096 < 224 := by omega
        have a4 : 224 + c.toNat / 4096 < 240 := by omega
        have e : (224 + c.toNat / 4096 - 224) * 4096 + (128 + c.toNat / 64 % 64 - 128) * 64
            + (128 + c.toNat % 64 - 128) = c.toNat := by omega
        simp only [utf8DecodeChar, if_neg a1, if_neg a2, if_neg a3, if_pos a4, e,
          Char.ofNat_toNat]
      · rw [if_neg h3]
        show utf8DecodeChar ((240 + c.toNat / 262144) :: (128 + c.toNat / 4096 % 64) ::
          (128 + c.toNat / 64 % 64) :: (128 + c.toNat % 64) :: rest) = _
        have a1 : ¬ 240 + c.toNat / 262144 < 128 := by omega
        have a2 : ¬ 240 + c.toNat / 262144 < 192 := by omega
        have a3 : ¬ 240 + c.toNat / 262144 < 224 := by omega
        have a4 : ¬ 240 + c.toNat / 262144 < 240 := by omega
        have e : (240 + c.toNat / 262144 - 240) * 262144
            + (128 + c.toNat / 4096 % 64 - 128) * 4096
            + (128 + c.toNat / 64 % 64 - 128) * 64 + (128 + c.toNat % 64 - 128) = c.toNat := by
          omega
        simp only [utf8DecodeChar, if_neg a1, if_neg a2, if_neg a3, if_neg a4, e,
          Char.ofNat_toNat]

theorem utf8EncodeChar_lt (c : Char) : ∀ b ∈ utf8EncodeChar c, b < 256 := by
  have hv := char_toNat_lt c
  unfold utf8EncodeChar
  intro b hb
  split_ifs at hb <;> simp only [List.mem_cons, List.mem_singleton, List.not_mem_nil,
    or_false] at hb <;> omega

theorem utf8EncodeChar_length (c : Char) : 1 ≤ (utf8EncodeChar c).length := by
  unfold utf8EncodeChar
  split_ifs <;> simp

theorem utf8DecodeLoop_encode :
    ∀ (cs : List Char) (fuel : Nat), (cs.flatMap utf8EncodeChar).length ≤ fuel →
      utf8DecodeLoop fuel (cs.flatMap utf8EncodeChar) = cs := by
  intro cs
  induction cs with
  | nil =>
    intro fuel _
    cases fuel with
    | zero => rfl
    | succ n => simp [utf8DecodeLoop, utf8DecodeChar]
  | cons c cs ih =>
    intro fuel hf
    rw [List.flatMap_cons, List.length_append] at hf
    have h1 := utf8EncodeChar_length c
    obtain ⟨n, rfl⟩ : ∃ n, fuel = n + 1 := ⟨fuel - 1, by omega⟩
    rw [List.flatMap_cons, utf8DecodeLoop, utf8DecodeChar_encode]
    simp only
    rw [ih n (by omega)]

/-- A string is the string of its bytes. -/
theorem stringOf_bytesOf (s : String) : stringOf (bytesOf s) = s := by
  unfold stringOf bytesOf
  rw [utf8DecodeLoop_encode s.toList _ le_rfl]
  rfl

theorem bytesOf_lt (s : String) : ∀ b ∈ bytesOf s, b < 256 := by
  intro b hb
  obtain ⟨c, _, hc⟩ := List.mem_flatMap.mp hb
  exact utf8EncodeChar_lt c b hc

theorem bytesOf_eq_nil {s : String} : bytesOf s = [] ↔ s = "" := by
  constructor
  · intro h
    have := stringOf_bytesOf s
    rw [h] at this
    exact this.symm
  · rintro rfl
    rfl

set_option maxRecDepth 100000 in
theorem sextet_table : ∀ x : Fin 64,
    decodeSextet (encodeSextet x.val) = some x.val ∧ encodeSextet x.val ≠ '=' ∧
      encodeSextet x.val ≠ Char.ofNat 10 ∧ encodeSextet x.val ≠ Char.ofNat 13 := by
  decide

theorem decodeSextet_encode {x : Nat} (h : x < 64) : decodeSextet (encodeSextet x) = some x :=
  (sextet_table ⟨x, h⟩).1

theorem encodeSextet_ne_pad {x : Nat} (h : x < 64) : encodeSextet x ≠ '=' :=
  (sextet_table ⟨x, h⟩).2.1

theorem mem_encodeBytes :
    ∀ (bs : List Nat), (∀ b ∈ bs, b < 256) →
      ∀ c ∈ encodeBytes bs, c = '=' ∨ ∃ x, x < 64 ∧ c = encodeSextet x := by
  intro bs
  induction bs using encodeBytes.induct with
  | case1 => intro _ c hc; simp [encodeBytes] at hc
  | case2 a =>
    intro h c hc
    have ha := h a (by simp)
    simp only [encodeBytes, List.mem_cons, List.mem_singleton, List.not_mem_nil, or_false] at hc
    rcases hc with rfl | rfl | rfl | rfl
    · exact Or.inr ⟨_, by omega, rfl⟩
    · exact Or.inr ⟨_, by omega, rfl⟩
    · exact Or.inl rfl
    · exact Or.inl rfl
  | case3 a b =>
    intro h c hc
    have ha := h a (by simp)
    have hb := h b (by simp)
    simp only [encodeBytes, List.mem_cons, List.mem_singleton, List.not_mem_nil, or_false] at hc
    rcases hc with rfl | rfl | rfl | rfl
    · exact Or.inr ⟨_, by omega, rfl⟩
    · exact Or.inr ⟨_, by omega, rfl⟩
    · exact Or.inr ⟨_, by omega, rfl⟩
    · exact Or.inl rfl
  | case4 a b c rest ih =>
    intro h d hd
    have ha := h a (by simp)
    have hb := h b (by simp)
    have hc := h c (by simp)
    simp only [encodeBytes, List.mem_cons] at hd
    rcases hd with rfl | rfl | rfl | rfl | hd
    · exact Or.inr ⟨_, by omega, rfl⟩
    · exact Or.inr ⟨_, by omega, rfl⟩
    · exact Or.inr ⟨_, by omega, rfl⟩
    · exact Or.inr ⟨_, by omega, rfl⟩
    · exact ih (fun x hx => h x (by simp [hx])) d hd

theorem decodeQuads_encode :
    ∀ (bs : List Nat), (∀ b ∈ bs, b < 256) → decodeQuads (encodeBytes bs) = some bs := by
  intro bs
  induction bs using encodeBytes.induct with
  | case1 => intro _; rfl
  | case2 a =>
    intro h
    have ha := h a (by simp)
    have e : a / 4 * 4 + a % 4 * 16 / 16 = a := by omega
    simp [encodeBytes, decodeQuads, decodeSextet_encode (show a / 4 < 64 by omega),
      decodeSextet_encode (show a % 4 * 16 < 64 by omega), e]
    omega
  | case3 a b =>
    intro h
    have ha := h a (by simp)
    have hb := h b (by simp)
    have e1 : a / 4 * 4 + (a % 4 * 16 + b / 16) / 16 = a := by omega
    have e2 : (a % 4 * 16 + b / 16) % 16 * 16 + b % 16 * 4 / 4 = b := by omega
    simp [encodeBytes, decodeQuads, decodeSextet_encode (show a / 4 < 64 by omega),
      decodeSextet_encode (show a % 4 * 16 + b / 16 < 64 by omega),
      decodeSextet_encode (show b % 16 * 4 < 64 by omega),
      encodeSextet_ne_pad (show b % 16 * 4 < 64 by omega), e1, e2]
    omega
  | case4 a b c rest ih =>
    intro h
    have ha := h a (by simp)
    have hb := h b (by simp)
    have hc := h c (by simp)
    have e1 : a / 4 * 4 + (a % 4 * 16 + b / 16) / 16 = a := by omega
    have e2 : (a % 4 * 16 + b / 16) % 16 * 16 + (b % 16 * 4 + c / 64) / 4 = b := by omega
    have e3 : (b % 16 * 4 + c / 64) % 4 * 64 + c % 64 = c := by omega
    simp [encodeBytes, decodeQuads, decodeSextet_encode (show a / 4 < 64 by omega),
      decodeSextet_encode (show a % 4 * 16 + b / 16 < 64 by omega),
      decodeSextet_encode (show b % 16 * 4 + c / 64 < 64 by omega),
      decodeSextet_encode (show c % 64 < 64 by omega),
      encodeSextet_ne_pad (show c % 64 < 64 by omega),
      ih (fun x hx => h x (by simp [hx])), e1, e2, e3]

/-- Decoding what was encoded gives the bytes back. -/
theorem DecodeString_EncodeToString (bs : List Nat) (h : ∀ b ∈ bs, b < 256) :
    DecodeString (EncodeToString bs) = some bs := by
  unfold DecodeString EncodeToString
  have hf : (encodeBytes bs).filter (fun c => c ≠ Char.ofNat 10 ∧ c ≠ Char.ofNat 13)
      = encodeBytes bs := by
    rw [List.filter_eq_self]
    intro c hc
    rcases mem_encodeBytes bs h c hc with rfl | ⟨x, hx, rfl⟩
    · decide
    · have := sextet_table ⟨x, hx⟩
      simp [this.2.2.1, this.2.2.2]
  show decodeQuads ((encodeBytes bs).filter _) = some bs
  rw [hf, decodeQuads_encode bs h]

theorem EncodeToString_eq_empty {bs : List Nat} : EncodeToString bs = "" ↔ bs = [] := by
  constructor
  · intro h
    have h1 : encodeBytes bs = [] := congrArg String.toList h
    match bs, h1 with
    | [], _ => rfl
    | [_], h1 => simp [encodeBytes] at h1
    | [_, _], h1 => simp [encodeBytes] at h1
    | _ :: _ :: _ :: _, h1 => simp [encodeBytes] at h1
  · rintro rfl
    rfl

/-! ## The server -/

/-- C14, as stated, fails for a mask whose invalid path extends a valid one: the mask
`target`, `target.bogus` is not valid against the fields of a record, `Normalize` drops the
second path, the mask that is left is valid, and `UpdateRedirect` calls `Update` (the journal
of the store shows the call) and returns the updated record. -/
theorem invalid_mask_reaches_store :
    IsValid (FieldMask.mk ["target", "target.bogus"]).Paths = false ∧
      normalizePaths (FieldMask.mk ["target", "target.bogus"]).Paths = ["target"] ∧
      (UpdateRedirect tracedOps (abcStore, [])
          ⟨some ⟨"b", "new"⟩, some ⟨["target", "target.bogus"]⟩⟩).map
          (fun out => (out.1, out.2.2, out.2.1.redirects.lookup "b")) =
        some ((some ⟨"b", "new"⟩, none), ["Update"], some ⟨"b", "new"⟩) := by
  decide

/-- C14, amended.  Validation comes before the store.  For every implementation of the store
interface and every state of it: `UpdateRedirect` without a record, and `UpdateRedirect` with a
record and a mask that `IsValid` rejects after `Normalize` (which sorts the paths and drops a
path that repeats or extends the one kept before it), return `InvalidArgument` with the state
they were given, and so does `CreateRedirect` without a record.  As this holds for every
implementation, one that records each call included, no method of the store is called. -/
theorem validation_before_store {σ : Type} (ops : StoreOps σ) (st : σ) :
    (∀ mask, UpdateRedirect ops st ⟨none, mask⟩ =
        some ((none, some (Error.Status Code.InvalidArgument "no redirect specified")), st)) ∧
      (∀ r m, IsValid (normalizePaths m.Paths) = false →
        UpdateRedirect ops st ⟨some r, some m⟩ =
          some ((none, some (Error.Status Code.InvalidArgument "mask invalid")), st)) ∧
      CreateRedirect ops st ⟨none⟩ =
        ((none, some (Error.Status Code.InvalidArgument "no redirect specified")), st) := by
  refine ⟨fun mask => rfl, ?_, rfl⟩
  intro r m hv
  simp only [UpdateRedirect, hv, if_true]

/-- Witness of C14: the store with a journal, and a mask with a path that names no field; the
journal of calls stays empty. -/
theorem validation_before_store_witness :
    IsValid (normalizePaths (FieldMask.mk ["target", "bogus"]).Paths) = false ∧
      ((∀ mask, UpdateRedirect tracedOps (abcStore, []) ⟨none, mask⟩ =
          some ((none, some (Error.Status Code.InvalidArgument "no redirect specified")),
            (abcStore, []))) ∧
        (∀ r m, IsValid (normalizePaths m.Paths) = false →
          UpdateRedirect tracedOps (abcStore, []) ⟨some r, some m⟩ =
            some ((none, some (Error.Status Code.InvalidArgument "mask invalid")),
              (abcStore, []))) ∧
        CreateRedirect tracedOps (abcStore, []) ⟨none⟩ =
          ((none, some (Error.Status Code.InvalidArgument "no redirect specified")),
            (abcStore, []))) ∧
      (UpdateRedirect tracedOps (abcStore, [])
          ⟨some ⟨"b", "new"⟩, some ⟨["target", "bogus"]⟩⟩).map (fun out => (out.1, out.2.2)) =
        some ((none, some (Error.Status Code.InvalidArgument "mask invalid")), []) ∧
      (UpdateRedirect tracedOps (abcStore, [])
          ⟨some ⟨"b", "new"⟩, some ⟨["target"]⟩⟩).map (fun out => (out.1, out.2.2)) =
        some ((some ⟨"b", "new"⟩, none), ["Update"]) :=
  ⟨by decide, validation_before_store tracedOps (abcStore, []), by decide, by decide⟩

theorem TrimPrefix_slash (x : String) : TrimPrefix ("/" ++ x) "/" = x := by
  have h : ("/" ++ x).toList = '/' :: x.toList := by
    show ("/" ++ x).data = _
    rw [String.data_append]
    rfl
  have hp : ("/" : String).toList = ['/'] := rfl
  unfold TrimPrefix
  rw [h, hp]
  simp [List.isPrefixOf]

theorem hexEscapeNonASCII_ascii (s : String) (h : ∀ c ∈ s.toList, c.toNat < 128) :
    hexEscapeNonASCII s = s := by
  unfold hexEscapeNonASCII bytesOf
  have key : ∀ cs : List Char, (∀ c ∈ cs, c.toNat < 128) →
      (cs.flatMap utf8EncodeChar).flatMap
        (fun b => if 128 ≤ b then ['%', hexDigit (b / 16), hexDigit (b % 16)]
          else [Char.ofNat b]) = cs := by
    intro cs
    induction cs with
    | nil => intro _; rfl
    | cons c cs ih =>
      intro hc
      have h1 : c.toNat < 128 := hc c (List.mem_cons_self _ _)
      have h2 : ¬ 128 ≤ c.toNat := by omega
      rw [List.flatMap_cons, List.flatMap_append,
        ih (fun x hx => hc x (List.mem_cons_of_mem _ hx))]
      simp [utf8EncodeChar, h1, h2, Char.ofNat_toNat]
  show String.mk _ = s
  rw [key s.toList h]
  rfl

/-- C16, as stated, fails for a target without a scheme: with the record `b` holding the
target `example.com`, `ServeHTTP` on the path `/b` calls `http.Redirect` with that target, and
the `Location` header of the answer is `/example.com`, the target made absolute against the
request path. -/
theorem location_not_target :
    ((New.Put ⟨"b", "example.com"⟩).2.redirects.lookup (TrimPrefix "/b" "/")) =
        some ⟨"b", "example.com"⟩ ∧
      (ServeHTTP memOps (New.Put ⟨"b", "example.com"⟩).2 "/b").map (fun out => out.1) =
        some (Response.Redirect "example.com" 307) ∧
      redirectLocation "/b" "example.com" = some "/example.com" ∧
      redirectLocation "/b" "example.com" ≠ some (Redirect.mk "b" "example.com").Target := by
  decide

/-- C16, amended.  `ServeHTTP` on the in-memory store looks up the request path with one
leading `/` taken off: when no record is stored under that name it answers `http.NotFound`
(404), and when a record is, it answers `http.Redirect` with that record's target and status
307; the store after the call is the store before it.  When the target has a scheme, the
`Location` header of the redirect is the target with its bytes from 128 on percent-escaped,
and so the target itself when it is ASCII.  (A target without a scheme is made absolute
against the request path.) -/
theorem ServeHTTP_lookup (s : Store) (p : String) :
    (s.redirects.lookup (TrimPrefix p "/") = none →
        ServeHTTP memOps s p = some (Response.NotFound, s)) ∧
      (∀ r, s.redirects.lookup (TrimPrefix p "/") = some r →
        ServeHTTP memOps s p = some (Response.Redirect r.Target 307, s) ∧
        (hasScheme r.Target = true →
          redirectLocation p r.Target = some (hexEscapeNonASCII r.Target) ∧
          ((∀ c ∈ r.Target.toList, c.toNat < 128) →
            redirectLocation p r.Target = some r.Target))) ∧
      (∀ x : String, TrimPrefix ("/" ++ x) "/" = x) ∧
      (p.toList.head? ≠ some '/' → TrimPrefix p "/" = p) := by
  refine ⟨?_, ?_, TrimPrefix_slash, ?_⟩
  · intro h
    simp [ServeHTTP, memOps, Store.Get, h]
  · intro r h
    refine ⟨by simp [ServeHTTP, memOps, Store.Get, h], ?_⟩
    intro hs
    have hloc : redirectLocation p r.Target = some (hexEscapeNonASCII r.Target) := by
      simp only [redirectLocation, hs, if_true]
    refine ⟨hloc, ?_⟩
    intro ha
    rw [hloc, hexEscapeNonASCII_ascii r.Target ha]
  · intro h
    unfold TrimPrefix
    have hp : ("/" : String).toList = ['/'] := rfl
    rw [hp]
    cases hl : p.toList with
    | nil => simp [List.isPrefixOf]
    | cons c cs =>
      rw [hl] at h
      have hc : c ≠ '/' := fun e => h (by simp [e])
      simp [List.isPrefixOf, hc.symm]

/-- Witness of C16: paths `/b`, `/d` and `//b` on `abcStore`, whose targets have a scheme. -/
theorem ServeHTTP_lookup_witness :
    abcStore.redirects.lookup (TrimPrefix "/b" "/") = some ⟨"b", "http://b"⟩ ∧
      ((abcStore.redirects.lookup (TrimPrefix "/b" "/") = none →
          ServeHTTP memOps abcStore "/b" = some (Response.NotFound, abcStore)) ∧
        (∀ r, abcStore.redirects.lookup (TrimPrefix "/b" "/") = some r →
          ServeHTTP memOps abcStore "/b" = some (Response.Redirect r.Target 307, abcStore) ∧
          (hasScheme r.Target = true →
            redirectLocation "/b" r.Target = some (hexEscapeNonASCII r.Target) ∧
            ((∀ c ∈ r.Target.toList, c.toNat < 128) →
              redirectLocation "/b" r.Target = some r.Target))) ∧
        (∀ x : String, TrimPrefix ("/" ++ x) "/" = x) ∧
        (("/b" : String).toList.head? ≠ some '/' → TrimPrefix "/b" "/" = "/b")) ∧
      hasScheme "http://b" = true ∧ (∀ c ∈ ("http://b" : String).toList, c.toNat < 128) ∧
      redirectLocation "/b" "http://b" = some "http://b" ∧
      redirectLocation "/b" "http://é" = some "http://%c3%a9" ∧
      ServeHTTP memOps abcStore "/b" = some (Response.Redirect "http://b" 307, abcStore) ∧
      ServeHTTP memOps abcStore "/d" = some (Response.NotFound, abcStore) ∧
      ServeHTTP memOps abcStore "//b" = some (Response.NotFound, abcStore) :=
  ⟨by decide, ServeHTTP_lookup abcStore "/b", by decide, by decide, by decide, by decide,
    rfl, rfl, rfl⟩

/-- C17. Page-token round trip.  For a request whose page token decodes (to the bytes `bs`),
with `page` and `next` what `Store.List` returns for the decoded token: `ListRedirects` on the
in-memory store returns `page` and, as `NextPageToken`, the standard base64 encoding of the
bytes of `next`; that token is empty exactly when `next` is; decoding it gives the bytes of
`next` back, and they are the string `next`; so the request that carries it answers with the
result of `Store.List(next, pagesize)`. -/
theorem page_token_round_trip (s : Store) (pt : String) (bs : List Nat) (pagesize : Int)
    (hpt : DecodeString pt = some bs) :
    ∃ page next, s.List (stringOf bs) pagesize = (page, next, none) ∧
      ListRedirects memOps s ⟨pt, pagesize⟩ =
        ((some ⟨page, EncodeToString (bytesOf next)⟩, none), s) ∧
      (EncodeToString (bytesOf next) = "" ↔ next = "") ∧
      DecodeString (EncodeToString (bytesOf next)) = some (bytesOf next) ∧
      stringOf (bytesOf next) = next ∧
      ListRedirects memOps s ⟨EncodeToString (bytesOf next), pagesize⟩ =
        ((some ⟨(s.List next pagesize).1,
          EncodeToString (bytesOf (s.List next pagesize).2.1)⟩, none), s) := by
  have hlist : ∀ token, ListRedirects memOps s ⟨EncodeToString (bytesOf token), pagesize⟩ =
      ((some ⟨(s.List token pagesize).1,
        EncodeToString (bytesOf (s.List token pagesize).2.1)⟩, none), s) := by
    intro token
    simp only [ListRedirects, DecodeString_EncodeToString _ (bytesOf_lt token),
      stringOf_bytesOf, memOps, Store.List]
  refine ⟨(s.List (stringOf bs) pagesize).1, (s.List (stringOf bs) pagesize).2.1, rfl, ?_,
    ?_, DecodeString_EncodeToString _ (bytesOf_lt _), stringOf_bytesOf _, hlist _⟩
  · simp only [ListRedirects, hpt, memOps, Store.List]
  · rw [EncodeToString_eq_empty, bytesOf_eq_nil]

/-- Witness of C17: the first page of two from `abcStore` and the request for the next. -/
theorem page_token_round_trip_witness :
    DecodeString "" = some [] ∧
      (∃ page next, abcStore.List (stringOf []) 2 = (page, next, none) ∧
        ListRedirects memOps abcStore ⟨"", 2⟩ =
          ((some ⟨page, EncodeToString (bytesOf next)⟩, none), abcStore) ∧
        (EncodeToString (bytesOf next) = "" ↔ next = "") ∧
        DecodeString (EncodeToString (bytesOf next)) = some (bytesOf next) ∧
        stringOf (bytesOf next) = next ∧
        ListRedirects memOps abcStore ⟨EncodeToString (bytesOf next), 2⟩ =
          ((some ⟨(abcStore.List next 2).1,
            EncodeToString (bytesOf (abcStore.List next 2).2.1)⟩, none), abcStore)) ∧
      (ListRedirects memOps abcStore ⟨"", 2⟩).1 =
        (some ⟨[some ⟨"a", "http://a"⟩, some ⟨"b", "http://b"⟩], "Yw=="⟩, none) ∧
      (ListRedirects memOps abcStore ⟨"Yw==", 2⟩).1 =
        (some ⟨[some ⟨"c", "http://c"⟩], ""⟩, none) :=
  ⟨by decide, page_token_round_trip abcStore "" [] 2 (by decide), by decide, by decide⟩

/-- C19. On a store whose keys are the names of the records they hold, for a request with a
record `r` and a mask that `IsValid` accepts: `UpdateRedirect` updates the record stored under
`r.Name`.  The store after the call has the keys it had, every key other than `r.Name` looks
up as before, a stored record is replaced by the merge of the request into it, and when
`r.Name` is not a key the call returns the status `NotFound` and the store is the one before
the call. -/
theorem UpdateRedirect_frame (s : Store) (hs : s.Keyed) (r : Redirect) (m : FieldMask)
    (hv : IsValid (normalizePaths m.Paths) = true) :
    ∃ out s2, UpdateRedirect memOps s ⟨some r, some m⟩ = some (out, s2) ∧
      (∀ k, k ∈ s2.redirects.keys ↔ k ∈ s.redirects.keys) ∧
      (∀ k, k ≠ r.Name → s2.redirects.lookup k = s.redirects.lookup k) ∧
      (r.Name ∉ s.redirects.keys →
        out = (none, some (Error.Status Code.NotFound "redirect not found")) ∧ s2 = s) ∧
      (∀ old, s.redirects.lookup r.Name = some old →
        out = (some (Merge old (Filter (Prune r immutableFields) (normalizePaths m.Paths))),
          none) ∧
        s2.redirects.lookup r.Name =
          some (Merge old (Filter (Prune r immutableFields) (normalizePaths m.Paths)))) := by
  have hv2 : ¬ IsValid (normalizePaths m.Paths) = false := by simp [hv]
  cases hl : s.redirects.lookup r.Name with
  | none =>
    refine ⟨(none, some (Error.Status Code.NotFound "redirect not found")), s, ?_,
      fun _ => Iff.rfl, fun _ _ => rfl, fun _ => ⟨rfl, rfl⟩, ?_⟩
    · simp [UpdateRedirect, hv, memOps, Store.Update, hl]
    · intro old ho
      cases ho
  | some old =>
    have hkey : (Merge old (Filter (Prune r immutableFields) (normalizePaths m.Paths))).Name =
        r.Name :=
      (Merge_upFn_name (normalizePaths m.Paths) old r).trans (keyed_lookup hs hl)
    have hup := Update_ok s r.Name (upFn (normalizePaths m.Paths)) r hl rfl rfl
    rw [upFn_result] at hup
    simp only at hup
    obtain ⟨mr, hmr⟩ : ∃ mr, mr = Merge old (Filter (Prune r immutableFields)
      (normalizePaths m.Paths)) := ⟨_, rfl⟩
    rw [← hmr] at hkey hup
    refine ⟨(some mr, none), ⟨(s.redirects.replace r.Name mr).insert mr.Name mr⟩, ?_, ?_, ?_,
      ?_, ?_⟩
    · simp only [UpdateRedirect, hv2, if_false, memOps]
      rw [hup]
      simp
    · intro k
      show k ∈ (s.redirects.replace r.Name mr).insert mr.Name mr ↔ k ∈ s.redirects
      rw [AList.mem_insert, AList.mem_replace, hkey]
      constructor
      · rintro (rfl | h)
        · exact mem_keys_of_lookup hl
        · exact h
      · exact Or.inr
    · intro k hk
      show ((s.redirects.replace r.Name mr).insert mr.Name mr).lookup k = _
      rw [AList.lookup_insert_ne (by rw [hkey]; exact hk), lookup_replace_ne s mr hk]
    · intro hn
      exact absurd (mem_keys_of_lookup hl) hn
    · intro old2 ho
      cases ho
      rw [← hmr]
      refine ⟨rfl, ?_⟩
      show ((s.redirects.replace r.Name mr).insert mr.Name mr).lookup r.Name = _
      rw [← hkey, AList.lookup_insert]

/-- Witness of C19: a new target for `b` in `abcStore`, and a request for the absent `d`. -/
theorem UpdateRedirect_frame_witness :
    abcStore.Keyed ∧ IsValid (normalizePaths (FieldMask.mk ["target", "name"]).Paths) = true ∧
      (∃ out s2,
        UpdateRedirect memOps abcStore ⟨some ⟨"b", "new"⟩, some ⟨["target", "name"]⟩⟩ =
          some (out, s2) ∧
        (∀ k, k ∈ s2.redirects.keys ↔ k ∈ abcStore.redirects.keys) ∧
        (∀ k, k ≠ (Redirect.mk "b" "new").Name →
          s2.redirects.lookup k = abcStore.redirects.lookup k) ∧
        ((Redirect.mk "b" "new").Name ∉ abcStore.redirects.keys →
          out = (none, some (Error.Status Code.NotFound "redirect not found")) ∧
            s2 = abcStore) ∧
        (∀ old, abcStore.redirects.lookup (Redirect.mk "b" "new").Name = some old →
          out = (some (Merge old (Filter (Prune ⟨"b", "new"⟩ immutableFields)
            (normalizePaths (FieldMask.mk ["target", "name"]).Paths))), none) ∧
          s2.redirects.lookup (Redirect.mk "b" "new").Name =
            some (Merge old (Filter (Prune ⟨"b", "new"⟩ immutableFields)
              (normalizePaths (FieldMask.mk ["target", "name"]).Paths))))) ∧
      (UpdateRedirect memOps abcStore ⟨some ⟨"b", "new"⟩, some ⟨["target", "name"]⟩⟩).map
          (fun out => (out.1, out.2.redirects.lookup "b")) =
        some ((some ⟨"b", "new"⟩, none), some ⟨"b", "new"⟩) ∧
      (UpdateRedirect memOps abcStore ⟨some ⟨"d", "new"⟩, some ⟨["target"]⟩⟩).map
          (fun out => out.1) =
        some (none, some (Error.Status Code.NotFound "redirect not found")) :=
  ⟨by decide, by decide,
    UpdateRedirect_frame abcStore (by decide) ⟨"b", "new"⟩ ⟨["target", "name"]⟩ (by decide),
    by decide, by decide⟩

end Tyny
